import Mathlib

/-!
A shallow embedding of the DecSync sync engine (repository `libdecsync`) and
proofs about it.  The repository snapshot contains the C ABI header
`src/linuxX64Main/libdecsync.h` and the C++ test `src/nativeTest/cpp/test.cpp`;
the engine implementation itself is not part of the snapshot, so the engine
semantics below are modelled from the specification (`spec.md`), as recorded in
each doc comment.  The ABI tables are transcribed directly from the header and
the test.
-/

namespace Decsync

/-- An entry path: an ordered sequence of opaque UTF-8 strings (spec §3). -/
abbrev EntryPath := List String

/-- Modelled from the spec: §4.2 entry codec.  One log line
`<datetime>\t<key>\t<value>`; `datetime`, `key`, `value` are opaque strings. -/
structure Line where
  datetime : String
  key : String
  value : String
deriving DecidableEq, Repr

/-- A log file identifier: the pair `(app_id, path)` (spec §3, §4.1: one log
file per `(app_id, path)`). -/
abbrev LogId := String × EntryPath

/-- Modelled from the spec: §4.1/§4.3 on-disk state, abstracted to the mapping
from `(app_id, path)` to the append-only list of log lines.  The list order of
`logs` is the (stable) enumeration order of §4.6 step 1. -/
structure Disk where
  logs : List (LogId × List Line)
deriving DecidableEq, Repr

/-- Association-list lookup used for logs, cursors and the stored view. -/
def alookup {κ α : Type} [DecidableEq κ] (k : κ) : List (κ × α) → Option α
  | [] => none
  | (k₂, v) :: rest => if k₂ = k then some v else alookup k rest

/-- Modelled from the spec: §4.3 `append` — append one line to the writer's
log for a path, creating the log if needed. -/
def appendLine (d : Disk) (i : LogId) (ℓ : Line) : Disk :=
  if (alookup i d.logs).isSome then
    ⟨d.logs.map (fun p => if p.1 = i then (p.1, p.2 ++ [ℓ]) else p)⟩
  else ⟨d.logs ++ [(i, [ℓ])]⟩

/-- Modelled from the spec: §4.7 total order on `(datetime, source_app_id)`
pairs — greater datetime (string comparison) wins, on equal datetimes the
lexicographically greater `source_app_id` wins.  `pairLt x y` means `y`
dominates `x`. -/
def pairLt (x y : String × String) : Bool :=
  x.1 < y.1 || (x.1 = y.1 && x.2 < y.2)

/-- A tentative entry produced while scanning new log lines (§4.6 step 2):
the line's data tagged with the source app id. -/
structure Tent where
  app : String
  path : EntryPath
  datetime : String
  key : String
  value : String
deriving DecidableEq, Repr

/-- The merge key of a tentative entry: its `(path, key)` (spec §4.6 step 3). -/
def tKey (t : Tent) : EntryPath × String := (t.path, t.key)

/-- The `(datetime, source_app_id)` pair of a tentative entry (spec §4.7). -/
def tStamp (t : Tent) : String × String := (t.datetime, t.app)

/-- `tentLt t u`: `u` dominates `t` under the §4.7 total order. -/
def tentLt (t u : Tent) : Bool := pairLt (tStamp t) (tStamp u)

/-- The §4.7 maximum of two values through their `(datetime, app_id)` stamp. -/
def maxStep {α : Type} (key : α → String × String) (b u : α) : α :=
  if pairLt (key b) (key u) then u else b

/-- The §4.7 maximum of `a :: l` through the stamp function `key`. -/
def foldMax {α : Type} (key : α → String × String) (a : α) (l : List α) : α :=
  l.foldl (maxStep key) a

/-- Modelled from the spec: §3 stored-entries index value —
`(value, datetime, source_app_id)` stored for a `(path, key)`. -/
structure StoredVal where
  value : String
  datetime : String
  srcApp : String
deriving DecidableEq, Repr

/-- Modelled from the spec: §4.9 — a listener is `(subpath, callback)`.  The
callback returns a success boolean; the plain (`decsync_add_listener`) shape is
modelled by a callback that always returns `true`, the with-success shape
(`decsync_add_listener_with_success`) by an arbitrary boolean callback.  The
callback receives `(path, datetime, key, value)`; the opaque `extra` pointer is
outside the model. -/
structure Listener where
  subpath : EntryPath
  onUpdate : EntryPath → String → String → String → Bool

/-- Modelled from the spec: §4.9 — a listener matches an entry iff its subpath
is a (non-strict) prefix of the entry's path. -/
def matchesPath : EntryPath → EntryPath → Bool
  | [], _ => true
  | _ :: _, [] => false
  | a :: as, b :: bs => a = b && matchesPath as bs

/-- Modelled from the spec: one engine instance (§2, §3): its own app id, its
registered listeners in registration order, its private sequence cursors
(§4.4: missing cursor is read as `0`), and its private stored-entries view
(§3, §4.8). -/
structure Engine where
  appId : String
  listeners : List Listener
  cursors : List (LogId × Nat)
  stored : List ((EntryPath × String) × StoredVal)

/-- The cursor of a log file: last consumed line count, `0` when absent
(spec §4.4). -/
def cursorOf (e : Engine) (i : LogId) : Nat := (alookup i e.cursors).getD 0

/-- One listener invocation: which listener (registration index) received
which `(path, datetime, key, value)` (spec §4.9). -/
structure Event where
  idx : Nat
  path : EntryPath
  datetime : String
  key : String
  value : String
deriving DecidableEq, Repr

/-- Pair each listener with its registration index, starting at `n`. -/
def withIdx (n : Nat) : List Listener → List (Nat × Listener)
  | [] => []
  | l :: rest => (n, l) :: withIdx (n + 1) rest

/-- The listeners matching a path, with their registration indices, in
registration order (spec §4.9). -/
def matchingListeners (ls : List Listener) (p : EntryPath) : List (Nat × Listener) :=
  (withIdx 0 ls).filter (fun il => matchesPath il.2.subpath p)

/-- The invocations produced by dispatching one merged entry to all matching
listeners in registration order (spec §4.6 step 4, §4.9). -/
def dispatchEvents (ls : List Listener) (t : Tent) : List Event :=
  (matchingListeners ls t.path).map (fun il => ⟨il.1, t.path, t.datetime, t.key, t.value⟩)

/-- Whether dispatching one merged entry succeeded: every matching callback
returned `true` (spec §4.9; plain listeners always succeed). -/
def dispatchOk (ls : List Listener) (t : Tent) : Bool :=
  (matchingListeners ls t.path).all (fun il => il.2.onUpdate t.path t.datetime t.key t.value)

/-- The tentative entry of one new line of the log file `(app, path)`
(spec §4.6 step 2). -/
def tentOf (app : String) (path : EntryPath) (ℓ : Line) : Tent :=
  ⟨app, path, ℓ.datetime, ℓ.key, ℓ.value⟩

/-- Modelled from the spec: §4.6 step 2 — the new (unconsumed) lines of one
log file as tentative entries. -/
def fileNewTents (e : Engine) (f : LogId × List Line) : List Tent :=
  (f.2.drop (cursorOf e f.1)).map (tentOf f.1.1 f.1.2)

/-- Modelled from the spec: §4.6 steps 1–2 — all new tentative entries across
all log files, in enumeration order. -/
def newTents (d : Disk) (e : Engine) : List Tent :=
  (d.logs.map (fileNewTents e)).flatten

/-- Modelled from the spec: §4.6 step 3 — insert one tentative entry into the
per-call working map keyed by `(path, key)`, keeping the §4.7 maximum. -/
def insertTent : List ((EntryPath × String) × Tent) → Tent → List ((EntryPath × String) × Tent)
  | [], t => [(tKey t, t)]
  | (k, u) :: rest, t =>
    if k = tKey t then (k, if tentLt u t then t else u) :: rest
    else (k, u) :: insertTent rest t

/-- Modelled from the spec: §4.6 step 3 — merge all tentative entries,
keeping per `(path, key)` the maximum under the §4.7 order. -/
def mergeTents (ts : List Tent) : List ((EntryPath × String) × Tent) :=
  ts.foldl insertTent []

/-- Modelled from the spec: §3/§4.8 — update the stored view at `(path, key)`
iff the incoming `(datetime, source_app_id)` dominates the stored one. -/
def updateStored :
    List ((EntryPath × String) × StoredVal) → EntryPath → String → String → String → String →
    List ((EntryPath × String) × StoredVal)
  | [], p, k, v, dt, app => [((p, k), ⟨v, dt, app⟩)]
  | (key, sv) :: rest, p, k, v, dt, app =>
    if key = (p, k) then
      (key, if pairLt (sv.datetime, sv.srcApp) (dt, app) then ⟨v, dt, app⟩ else sv) :: rest
    else (key, sv) :: updateStored rest p k v dt app

/-- Modelled from the spec: §4.6 steps 4 and §4.9 — walk the new lines of one
log file in order; a line equal to its `(path, key)` merge winner is dispatched
to the matching listeners, a superseded line is consumed silently; at the first
failed dispatch the rest of the file is not delivered in this call
(stop-at-first-failure per log file). -/
def runTents (ls : List Listener) (w : List ((EntryPath × String) × Tent)) :
    List Tent → List Event
  | [] => []
  | t :: rest =>
    if alookup (tKey t) w = some t then
      if dispatchOk ls t then dispatchEvents ls t ++ runTents ls w rest
      else dispatchEvents ls t
    else runTents ls w rest

/-- Modelled from the spec: §4.6 step 5 — how many of the new lines of one log
file the cursor advances over: all lines up to (excluding) the first line whose
dispatch failed (§4.9); superseded lines are consumed. -/
def runCount (ls : List Listener) (w : List ((EntryPath × String) × Tent)) :
    List Tent → Nat
  | [] => 0
  | t :: rest =>
    if alookup (tKey t) w = some t then
      if dispatchOk ls t then runCount ls w rest + 1 else 0
    else runCount ls w rest + 1

/-- Modelled from the spec: §4.6 step 4 — the stored-view updates performed
while executing the new lines of one log file. -/
def runStored (ls : List Listener) (w : List ((EntryPath × String) × Tent)) :
    List Tent → List ((EntryPath × String) × StoredVal) →
    List ((EntryPath × String) × StoredVal)
  | [], st => st
  | t :: rest, st =>
    if alookup (tKey t) w = some t then
      let st₂ := updateStored st t.path t.key t.value t.datetime t.app
      if dispatchOk ls t then runStored ls w rest st₂ else st₂
    else runStored ls w rest st

/-- Replace (or create) the cursor of one log file (spec §4.4). -/
def setCursor : List (LogId × Nat) → LogId → Nat → List (LogId × Nat)
  | [], i, n => [(i, n)]
  | (j, m) :: rest, i, n =>
    if j = i then (i, n) :: rest else (j, m) :: setCursor rest i n

/-- Modelled from the spec: §4.6 `execute_all_new_entries`
(C ABI `decsync_execute_all_new_entries`) — scan all log files from their
cursors, merge the tentative entries per `(path, key)` keeping the §4.7
maximum, dispatch each surviving entry to the matching listeners, update the
stored view, and advance the cursors (only over successfully dispatched lines,
stopping at the first failure per log file). -/
def executeAllNewEntries (d : Disk) (e : Engine) : Engine × List Event :=
  let w := mergeTents (newTents d e)
  let evs := (d.logs.map (fun f => runTents e.listeners w (fileNewTents e f))).flatten
  let cs := d.logs.foldl
    (fun cs f => setCursor cs f.1 (cursorOf e f.1 + runCount e.listeners w (fileNewTents e f)))
    e.cursors
  let st := d.logs.foldl (fun st f => runStored e.listeners w (fileNewTents e f) st) e.stored
  ({ e with cursors := cs, stored := st }, evs)

/-- Modelled from the spec: §2 write path and §3 — `set_entry`
(C ABI `decsync_set_entry`) appends one line to the caller's own log file for
`path` with the current wall-clock datetime (passed here explicitly as the
clock oracle `dt`), and keeps the caller's private stored view coherent: the
write updates the stored entry for `(path, key)` iff it dominates it (§3:
every write a reader observes updates its stored view; a writer observes its
own writes immediately). -/
def setEntry (d : Disk) (e : Engine) (p : EntryPath) (k v dt : String) : Disk × Engine :=
  (appendLine d (e.appId, p) ⟨dt, k, v⟩,
   { e with stored := updateStored e.stored p k v dt e.appId })

/-- Modelled from the spec: §4.8 `execute_stored_entry`
(C ABI `decsync_execute_stored_entry`) — look up `(path, key)` in the stored
view; if present, dispatch it to the matching listeners with its stored
datetime. -/
def executeStoredEntry (e : Engine) (p : EntryPath) (k : String) : List Event :=
  match alookup (p, k) e.stored with
  | some sv => dispatchEvents e.listeners ⟨sv.srcApp, p, sv.datetime, k, sv.value⟩
  | none => []

/-- Modelled from the spec: §4.8 `execute_stored_entries`
(C ABI `decsync_execute_stored_entries`) — batch of `execute_stored_entry`. -/
def executeStoredEntries (e : Engine) (pks : List (EntryPath × String)) : List Event :=
  (pks.map (fun pk => executeStoredEntry e pk.1 pk.2)).flatten

/-- The dispatch of one entry of the stored view (spec §4.8). -/
def entryEvents (e : Engine) (ent : (EntryPath × String) × StoredVal) : List Event :=
  dispatchEvents e.listeners ⟨ent.2.srcApp, ent.1.1, ent.2.datetime, ent.1.2, ent.2.value⟩

/-- Modelled from the spec: §4.8 `execute_stored_entries_for_path_exact`
(C ABI `decsync_execute_stored_entries_for_path_exact`) — dispatch only stored
entries whose path equals `p` and whose key is in `ks`. -/
def executeStoredEntriesForPathExact (e : Engine) (p : EntryPath) (ks : List String) :
    List Event :=
  ((e.stored.filter (fun ent => decide (ent.1.1 = p) && decide (ent.1.2 ∈ ks))).map
    (entryEvents e)).flatten

/-- Modelled from the spec: §4.8 `execute_all_stored_entries_for_path_exact`
(C ABI `decsync_execute_all_stored_entries_for_path_exact`) — dispatch every
stored entry at exactly `p`. -/
def executeAllStoredEntriesForPathExact (e : Engine) (p : EntryPath) : List Event :=
  ((e.stored.filter (fun ent => decide (ent.1.1 = p))).map (entryEvents e)).flatten

/-- Modelled from the spec: §4.8 `execute_stored_entries_for_path_prefix`
(C ABI `decsync_execute_stored_entries_for_path_prefix`) — dispatch stored
entries whose path has `p` as a (non-strict) prefix and whose key is in `ks`. -/
def executeStoredEntriesForPathPfx (e : Engine) (p : EntryPath) (ks : List String) :
    List Event :=
  ((e.stored.filter (fun ent => matchesPath p ent.1.1 && decide (ent.1.2 ∈ ks))).map
    (entryEvents e)).flatten

/-- Modelled from the spec: §4.8 `execute_all_stored_entries_for_path_prefix`
(C ABI `decsync_execute_all_stored_entries_for_path_prefix`) — dispatch every
stored entry whose path has `p` as a (non-strict) prefix. -/
def executeAllStoredEntriesForPathPfx (e : Engine) (p : EntryPath) : List Event :=
  ((e.stored.filter (fun ent => matchesPath p ent.1.1)).map (entryEvents e)).flatten

/-- All `(datetime, source_app_id)` stamps of the entries on disk. -/
def diskStamps (d : Disk) : List (String × String) :=
  (d.logs.map (fun f => f.2.map (fun ℓ => (ℓ.datetime, f.1.1)))).flatten

/-- Modelled from the spec: §4.7 — the comparison used by `latest_app_id`:
newer datetime wins; on a datetime tie the caller's own app id is preferred,
otherwise the lexicographically greater app id wins. -/
def laBetter (own : String) (b c : String × String) : Bool :=
  b.1 < c.1 || (b.1 = c.1 && (c.2 = own || (!(b.2 = own) && b.2 < c.2)))

/-- The best `(datetime, app_id)` stamp for `latest_app_id` over a list of
candidate stamps. -/
def bestStamp (own : String) : Option (String × String) → List (String × String) →
    Option (String × String)
  | acc, [] => acc
  | none, c :: cs => bestStamp own (some c) cs
  | some b, c :: cs => bestStamp own (some (if laBetter own b c then c else b)) cs

/-- Modelled from the spec: §4.7 `latest_app_id`
(C ABI `decsync_latest_app_id`) — the app id that stored the most recent entry,
ties broken in favor of the caller's own app id; the caller's own app id when
there are no entries at all. -/
def latestAppId (d : Disk) (own : String) : String :=
  match bestStamp own none (diskStamps d) with
  | none => own
  | some b => b.2

/-- The `(datetime, app_id, value)` candidates considered by
`get_static_info` for a key: all writers' entries at path `["info"]` with that
key (spec §4.8). -/
def infoCands (d : Disk) (k : String) : List (String × String × String) :=
  (d.logs.map (fun f =>
    if f.1.2 = ["info"] then
      (f.2.filter (fun ℓ => decide (ℓ.key = k))).map (fun ℓ => (ℓ.datetime, f.1.1, ℓ.value))
    else [])).flatten

/-- Modelled from the spec: §4.8 `get_static_info`
(C ABI `decsync_get_static_info`) — scan all writers' entries at path
`["info"]` for the key and return the §4.7-winning value, or the JSON literal
`null` when there is none.  The `(dir, sync_type, collection)` arguments select
the DecSync base directory, abstracted here as the `Disk`. -/
def getStaticInfo (d : Disk) (k : String) : String :=
  match infoCands d k with
  | [] => "null"
  | c :: cs => (foldMax (fun u => (u.1, u.2.1)) c cs).2.2

/-- One operation of the C ABI as declared in `src/linuxX64Main/libdecsync.h`:
its name, whether its return type is `int`, the error codes documented for it
in the header (empty when the return value is not an error code), and whether
it can throw across the ABI.  The `canThrow` field is modelled from the spec:
§7 propagation policy — the engine never throws across the ABI; the other
fields are transcribed from the header. -/
structure AbiOp where
  name : String
  returnsInt : Bool
  errorCodes : List Nat
  canThrow : Bool
deriving DecidableEq, Repr

/-- The C ABI operations declared in `src/linuxX64Main/libdecsync.h`, in
declaration order, with their return kinds and documented error codes. -/
def headerAbi : List AbiOp := [
  ⟨"decsync_new", true, [0, 1, 2], false⟩,
  ⟨"decsync_free", false, [], false⟩,
  ⟨"decsync_entry_with_path_new", false, [], false⟩,
  ⟨"decsync_entry_with_path_free", false, [], false⟩,
  ⟨"decsync_entry_new", false, [], false⟩,
  ⟨"decsync_entry_free", false, [], false⟩,
  ⟨"decsync_stored_entry_new", false, [], false⟩,
  ⟨"decsync_stored_entry_free", false, [], false⟩,
  ⟨"decsync_add_listener", false, [], false⟩,
  ⟨"decsync_set_entry", false, [], false⟩,
  ⟨"decsync_set_entries", false, [], false⟩,
  ⟨"decsync_set_entries_for_path", false, [], false⟩,
  ⟨"decsync_execute_all_new_entries", false, [], false⟩,
  ⟨"decsync_execute_stored_entry", false, [], false⟩,
  ⟨"decsync_execute_stored_entries", false, [], false⟩,
  ⟨"decsync_execute_stored_entries_for_path", false, [], false⟩,
  ⟨"decsync_execute_all_stored_entries_for_path", false, [], false⟩,
  ⟨"decsync_init_stored_entries", false, [], false⟩,
  ⟨"decsync_latest_app_id", false, [], false⟩,
  ⟨"decsync_get_static_info", false, [], false⟩,
  ⟨"decsync_check_decsync_info", true, [0, 1, 2], false⟩,
  ⟨"decsync_list_decsync_collections", true, [], false⟩,
  ⟨"decsync_get_app_id", false, [], false⟩,
  ⟨"decsync_get_app_id_with_id", false, [], false⟩]

/-- The C ABI functions called by the repository's own test
`src/nativeTest/cpp/test.cpp`, in order of first call site. -/
def testCalledOps : List String := [
  "decsync_new",
  "decsync_add_listener",
  "decsync_add_listener_with_success",
  "decsync_set_entry",
  "decsync_entry_with_path_new",
  "decsync_set_entries",
  "decsync_entry_with_path_free",
  "decsync_entry_new",
  "decsync_set_entries_for_path",
  "decsync_entry_free",
  "decsync_execute_all_new_entries",
  "decsync_execute_stored_entry",
  "decsync_stored_entry_new",
  "decsync_execute_stored_entries",
  "decsync_stored_entry_free",
  "decsync_execute_stored_entries_for_path_exact",
  "decsync_execute_all_stored_entries_for_path_exact",
  "decsync_execute_stored_entries_for_path_prefix",
  "decsync_execute_all_stored_entries_for_path_prefix",
  "decsync_init_stored_entries",
  "decsync_latest_app_id",
  "decsync_get_static_info",
  "decsync_list_collections",
  "decsync_generate_app_id",
  "decsync_get_app_id",
  "decsync_get_app_id_with_id",
  "decsync_init_done"]

/-- The write list of a set of writers, each writer being its app id with its
`(datetime, value)` append sequence to a fixed `(path, key)`: every write as a
`(app_id, datetime, value)` triple. -/
def allWrites (writers : List (String × List (String × String))) :
    List (String × String × String) :=
  writers.flatMap (fun w => w.2.map (fun dv => (w.1, dv.1, dv.2)))

/-- `writeLt u v`: the write `v` dominates the write `u` under the §4.7 order
on `(datetime, app_id)`. -/
def writeLt (u v : String × String × String) : Bool :=
  pairLt (u.2.1, u.1) (v.2.1, v.1)

/-- The disk state after a set of writers each appended their writes (in
order) to their own log file for path `p`, all with key `k` (spec §4.1/§4.3:
each writer owns one log file per path; appends by different writers target
different files, so any interleaving yields this state up to file enumeration
order, which `writers` quantifies over). -/
def diskOf (writers : List (String × List (String × String))) (p : EntryPath) (k : String) :
    Disk :=
  ⟨writers.map (fun w => ((w.1, p), w.2.map (fun dv => ⟨dv.1, k, dv.2⟩)))⟩

/-- The tentative entry of one write of `allWrites` at `(p, k)`. -/
def tentOfWrite (p : EntryPath) (k : String) (u : String × String × String) : Tent :=
  ⟨u.1, p, u.2.1, k, u.2.2⟩

/-- A fresh reader engine with app id `r` and one plain listener at subpath
`[]` (a listener that matches every entry and always succeeds, spec §4.9). -/
def readerEngine (r : String) : Engine :=
  ⟨r, [⟨[], fun _ _ _ _ => true⟩], [], []⟩

/-! ### Properties of the §4.7 order -/

theorem pairLt_iff {x y : String × String} :
    pairLt x y = true ↔ x.1 < y.1 ∨ (x.1 = y.1 ∧ x.2 < y.2) := by
  simp [pairLt]

theorem pairLt_irrefl (x : String × String) : pairLt x x = false := by
  simp [pairLt]

theorem pairLt_trans {x y z : String × String} (h₁ : pairLt x y = true)
    (h₂ : pairLt y z = true) : pairLt x z = true := by
  rw [pairLt_iff] at h₁ h₂ ⊢
  rcases h₁ with h₁ | ⟨h₁, h₁'⟩ <;> rcases h₂ with h₂ | ⟨h₂, h₂'⟩
  · exact Or.inl (lt_trans h₁ h₂)
  · exact Or.inl (h₂ ▸ h₁)
  · exact Or.inl (h₁ ▸ h₂)
  · exact Or.inr ⟨h₁.trans h₂, lt_trans h₁' h₂'⟩

theorem pairLt_total {x y : String × String} (h : x ≠ y) :
    pairLt x y = true ∨ pairLt y x = true := by
  rw [pairLt_iff, pairLt_iff]
  rcases lt_trichotomy x.1 y.1 with h₁ | h₁ | h₁
  · exact Or.inl (Or.inl h₁)
  · rcases lt_trichotomy x.2 y.2 with h₂ | h₂ | h₂
    · exact Or.inl (Or.inr ⟨h₁, h₂⟩)
    · exact absurd (Prod.ext_iff.mpr ⟨h₁, h₂⟩) h
    · exact Or.inr (Or.inr ⟨h₁.symm, h₂⟩)
  · exact Or.inr (Or.inl h₁)

theorem maxStep_eq {α : Type} (key : α → String × String) (b u : α) :
    maxStep key b u = if pairLt (key b) (key u) then u else b := rfl

theorem foldMax_cons {α : Type} (key : α → String × String) (a c : α) (l : List α) :
    foldMax key a (c :: l) = foldMax key (maxStep key a c) l := rfl

theorem foldMax_mem {α : Type} (key : α → String × String) (a : α) (l : List α) :
    foldMax key a l ∈ a :: l := by
  induction l generalizing a with
  | nil => simp [foldMax]
  | cons c l ih =>
    rw [foldMax_cons]
    have h := ih (maxStep key a c)
    rw [List.mem_cons] at h
    rcases h with h | h
    · by_cases hb : pairLt (key a) (key c) = true
      · have hc : maxStep key a c = c := by rw [maxStep_eq, if_pos hb]
        rw [List.mem_cons, List.mem_cons]
        exact Or.inr (Or.inl (by rw [h, hc]))
      · have hc : maxStep key a c = a := by rw [maxStep_eq, if_neg hb]
        rw [List.mem_cons]
        exact Or.inl (by rw [h, hc])
    · rw [List.mem_cons, List.mem_cons]
      exact Or.inr (Or.inr h)

theorem foldMax_max {α : Type} (key : α → String × String) (a : α) (l : List α) :
    ∀ u ∈ a :: l, key u = key (foldMax key a l) ∨
      pairLt (key u) (key (foldMax key a l)) = true := by
  induction l generalizing a with
  | nil =>
    intro u hu
    rw [List.mem_cons] at hu
    rcases hu with hu | hu
    · subst hu; exact Or.inl rfl
    · cases hu
  | cons c l ih =>
    intro u hu
    rw [foldMax_cons]
    have hmem := ih (maxStep key a c)
    rw [List.mem_cons, List.mem_cons] at hu
    rcases hu with hu | hu | hu
    · subst hu
      by_cases hb : pairLt (key u) (key c) = true
      · have hc : maxStep key u c = c := by rw [maxStep_eq, if_pos hb]
        rcases hmem c (by rw [hc]; exact List.mem_cons_self _ _) with h | h
        · exact Or.inr (h ▸ hb)
        · exact Or.inr (pairLt_trans hb h)
      · have hc : maxStep key u c = u := by rw [maxStep_eq, if_neg hb]
        exact hmem u (by rw [hc]; exact List.mem_cons_self _ _)
    · subst hu
      by_cases hb : pairLt (key a) (key u) = true
      · have hc : maxStep key a u = u := by rw [maxStep_eq, if_pos hb]
        exact hmem u (by rw [hc]; exact List.mem_cons_self _ _)
      · have hc : maxStep key a u = a := by rw [maxStep_eq, if_neg hb]
        rcases hmem a (by rw [hc]; exact List.mem_cons_self _ _) with h | h
        · by_cases hk : key u = key a
          · exact Or.inl (hk.trans h)
          · rcases pairLt_total hk with hlt | hlt
            · exact Or.inr (h ▸ hlt)
            · exact absurd hlt hb
        · by_cases hk : key u = key a
          · exact Or.inr (by rw [hk]; exact h)
          · rcases pairLt_total hk with hlt | hlt
            · exact Or.inr (pairLt_trans hlt h)
            · exact absurd hlt hb
    · exact hmem u (List.mem_cons_of_mem _ hu)

/-! ### Listener matching -/

theorem matchesPath_iff (sp q : EntryPath) :
    matchesPath sp q = true ↔ ∃ rest, sp ++ rest = q := by
  induction sp generalizing q with
  | nil => simp [matchesPath]
  | cons a as ih =>
    cases q with
    | nil => simp [matchesPath]
    | cons b bs =>
      rw [matchesPath]
      simp only [Bool.and_eq_true, decide_eq_true_eq, ih bs]
      constructor
      · rintro ⟨rfl, rest, rfl⟩; exact ⟨rest, rfl⟩
      · rintro ⟨rest, h⟩
        injection h with h₁ h₂
        exact ⟨h₁, rest, h₂⟩

theorem matchesPath_refl (p : EntryPath) : matchesPath p p = true := by
  rw [matchesPath_iff]; exact ⟨[], by simp⟩

theorem withIdx_nil (n : Nat) : withIdx n [] = [] := rfl

theorem withIdx_cons (n : Nat) (l : Listener) (rest : List Listener) :
    withIdx n (l :: rest) = (n, l) :: withIdx (n + 1) rest := rfl

theorem withIdx_mem : ∀ {n : Nat} {ls : List Listener} {il : Nat × Listener},
    il ∈ withIdx n ls → il.2 ∈ ls
  | n, [], il, h => by rw [withIdx_nil] at h; cases h
  | n, l :: rest, il, h => by
    rw [withIdx_cons, List.mem_cons] at h
    rcases h with h | h
    · rw [h]; exact List.mem_cons_self _ _
    · exact List.mem_cons_of_mem _ (withIdx_mem h)

theorem dispatchOk_allTrue {ls : List Listener}
    (hls : ∀ l ∈ ls, ∀ p dt k v, l.onUpdate p dt k v = true) (t : Tent) :
    dispatchOk ls t = true := by
  rw [dispatchOk, List.all_eq_true]
  intro il hil
  exact hls il.2 (withIdx_mem (List.mem_of_mem_filter hil)) _ _ _ _

/-! ### Association lists -/

theorem alookup_nil {κ α : Type} [DecidableEq κ] (k : κ) :
    alookup k ([] : List (κ × α)) = none := rfl

theorem alookup_cons {κ α : Type} [DecidableEq κ] (k k₂ : κ) (v : α) (rest : List (κ × α)) :
    alookup k ((k₂, v) :: rest) = if k₂ = k then some v else alookup k rest := rfl

theorem alookup_append_of_none {κ α : Type} [DecidableEq κ] {k : κ} :
    ∀ {a : List (κ × α)} (b : List (κ × α)), alookup k a = none →
      alookup k (a ++ b) = alookup k b
  | [], _, _ => rfl
  | (k₂, v) :: rest, b, h => by
    by_cases hk : k₂ = k
    · rw [alookup_cons, if_pos hk] at h
      cases h
    · rw [alookup_cons, if_neg hk] at h
      rw [List.cons_append, alookup_cons, if_neg hk]
      exact alookup_append_of_none b h

theorem setCursor_nil (i : LogId) (n : Nat) : setCursor [] i n = [(i, n)] := rfl

theorem setCursor_cons (j i : LogId) (m n : Nat) (rest : List (LogId × Nat)) :
    setCursor ((j, m) :: rest) i n =
      if j = i then (i, n) :: rest else (j, m) :: setCursor rest i n := rfl

theorem alookup_setCursor_self : ∀ (cs : List (LogId × Nat)) (i : LogId) (n : Nat),
    alookup i (setCursor cs i n) = some n
  | [], i, n => by rw [setCursor_nil, alookup_cons, if_pos rfl]
  | (j, m) :: rest, i, n => by
    rw [setCursor_cons]
    by_cases hj : j = i
    · rw [if_pos hj, alookup_cons, if_pos rfl]
    · rw [if_neg hj, alookup_cons, if_neg hj]
      exact alookup_setCursor_self rest i n

theorem alookup_setCursor_ne : ∀ (cs : List (LogId × Nat)) {i j : LogId} (n : Nat),
    j ≠ i → alookup j (setCursor cs i n) = alookup j cs
  | [], i, j, n, h => by
    rw [setCursor_nil, alookup_cons, if_neg (fun h₂ => h h₂.symm), alookup_nil]
  | (j₂, m) :: rest, i, j, n, h => by
    rw [setCursor_cons]
    by_cases hj : j₂ = i
    · rw [if_pos hj, alookup_cons, if_neg (fun h₂ => h h₂.symm), alookup_cons, hj,
        if_neg (fun h₂ => h h₂.symm)]
    · rw [if_neg hj, alookup_cons, alookup_cons]
      by_cases hj₂ : j₂ = j
      · rw [if_pos hj₂, if_pos hj₂]
      · rw [if_neg hj₂, if_neg hj₂]
        exact alookup_setCursor_ne rest n h

/-! ### The per-call merge map -/

theorem insertTent_nil (t : Tent) : insertTent [] t = [(tKey t, t)] := rfl

theorem insertTent_cons (k : EntryPath × String) (u : Tent)
    (rest : List ((EntryPath × String) × Tent)) (t : Tent) :
    insertTent ((k, u) :: rest) t =
      if k = tKey t then (k, if tentLt u t then t else u) :: rest
      else (k, u) :: insertTent rest t := rfl

theorem insertTent_fresh : ∀ (m : List ((EntryPath × String) × Tent)) (t : Tent),
    alookup (tKey t) m = none → insertTent m t = m ++ [(tKey t, t)]
  | [], _, _ => rfl
  | (k, u) :: rest, t, h => by
    by_cases hk : k = tKey t
    · rw [alookup_cons, if_pos hk] at h
      cases h
    · rw [alookup_cons, if_neg hk] at h
      rw [insertTent_cons, if_neg hk, List.cons_append, insertTent_fresh rest t h]

theorem foldl_insertTent_fresh : ∀ (ts : List Tent) (acc : List ((EntryPath × String) × Tent)),
    (∀ t ∈ ts, alookup (tKey t) acc = none) → (ts.map tKey).Nodup →
    List.foldl insertTent acc ts = acc ++ ts.map (fun t => (tKey t, t))
  | [], acc, _, _ => by simp
  | t :: ts, acc, hfresh, hnd => by
    rw [List.map_cons, List.nodup_cons] at hnd
    rw [List.foldl_cons, insertTent_fresh acc t (hfresh t (List.mem_cons_self _ _))]
    have hfresh₂ : ∀ u ∈ ts, alookup (tKey u) (acc ++ [(tKey t, t)]) = none := by
      intro u hu
      rw [alookup_append_of_none _ (hfresh u (List.mem_cons_of_mem _ hu)), alookup_cons,
        if_neg (fun hEq => hnd.1 (by rw [hEq]; exact List.mem_map_of_mem tKey hu)), alookup_nil]
    rw [foldl_insertTent_fresh ts (acc ++ [(tKey t, t)]) hfresh₂ hnd.2]
    simp

theorem mergeTents_nodup (ts : List Tent) (hnd : (ts.map tKey).Nodup) :
    mergeTents ts = ts.map (fun t => (tKey t, t)) := by
  have h := foldl_insertTent_fresh ts [] (fun t _ => rfl) hnd
  rw [List.nil_append] at h
  exact h

theorem alookup_map_self : ∀ {ts : List Tent}, (ts.map tKey).Nodup →
    ∀ {t : Tent}, t ∈ ts → alookup (tKey t) (ts.map (fun u => (tKey u, u))) = some t
  | [], _, t, h => by cases h
  | u :: ts, hnd, t, h => by
    rw [List.map_cons, List.nodup_cons] at hnd
    rw [List.map_cons, alookup_cons]
    rcases List.mem_cons.mp h with h | h
    · rw [h, if_pos rfl]
    · rw [if_neg (fun hEq => hnd.1 (by rw [hEq]; exact List.mem_map_of_mem tKey h))]
      exact alookup_map_self hnd.2 h

theorem mergeTents_lookup_self (ts : List Tent) (hnd : (ts.map tKey).Nodup)
    {t : Tent} (ht : t ∈ ts) : alookup (tKey t) (mergeTents ts) = some t := by
  rw [mergeTents_nodup ts hnd]
  exact alookup_map_self hnd ht

theorem foldl_insertTent_single : ∀ (pk : EntryPath × String) (b : Tent) (ts : List Tent),
    tKey b = pk → (∀ t ∈ ts, tKey t = pk) →
    List.foldl insertTent [(pk, b)] ts = [(pk, foldMax tStamp b ts)]
  | _, _, [], _, _ => by rw [List.foldl_nil]; rfl
  | pk, b, t :: ts, hb, h => by
    have ht : tKey t = pk := h t (List.mem_cons_self _ _)
    have hins : insertTent [(pk, b)] t = [(pk, maxStep tStamp b t)] := by
      rw [insertTent_cons, if_pos (by rw [ht]), maxStep_eq]
      rfl
    have hbt : tKey (maxStep tStamp b t) = pk := by
      rw [maxStep_eq]
      split
      · exact ht
      · exact hb
    rw [List.foldl_cons, hins, foldMax_cons]
    exact foldl_insertTent_single pk (maxStep tStamp b t) ts hbt
      (fun u hu => h u (List.mem_cons_of_mem _ hu))

theorem mergeTents_const (pk : EntryPath × String) (ts : List Tent) (hne : ts ≠ [])
    (h : ∀ t ∈ ts, tKey t = pk) :
    ∃ m, mergeTents ts = [(pk, m)] ∧ m ∈ ts ∧
      ∀ u ∈ ts, tStamp u = tStamp m ∨ pairLt (tStamp u) (tStamp m) = true := by
  cases ts with
  | nil => exact absurd rfl hne
  | cons t ts =>
    have ht : tKey t = pk := h t (List.mem_cons_self _ _)
    refine ⟨foldMax tStamp t ts, ?_, foldMax_mem tStamp t ts, foldMax_max tStamp t ts⟩
    show List.foldl insertTent [] (t :: ts) = [(pk, foldMax tStamp t ts)]
    rw [List.foldl_cons]
    have hins : insertTent [] t = [(pk, t)] := by rw [insertTent_nil, ht]
    rw [hins]
    exact foldl_insertTent_single pk t ts ht (fun u hu => h u (List.mem_cons_of_mem _ hu))

/-! ### Executing new lines -/

theorem runTents_nil (ls : List Listener) (w : List ((EntryPath × String) × Tent)) :
    runTents ls w [] = [] := rfl

theorem runTents_cons (ls : List Listener) (w : List ((EntryPath × String) × Tent))
    (t : Tent) (rest : List Tent) :
    runTents ls w (t :: rest) =
      if alookup (tKey t) w = some t then
        if dispatchOk ls t then dispatchEvents ls t ++ runTents ls w rest
        else dispatchEvents ls t
      else runTents ls w rest := rfl

theorem runCount_nil (ls : List Listener) (w : List ((EntryPath × String) × Tent)) :
    runCount ls w [] = 0 := rfl

theorem runCount_cons (ls : List Listener) (w : List ((EntryPath × String) × Tent))
    (t : Tent) (rest : List Tent) :
    runCount ls w (t :: rest) =
      if alookup (tKey t) w = some t then
        if dispatchOk ls t then runCount ls w rest + 1 else 0
      else runCount ls w rest + 1 := rfl

theorem runTents_allTrue {ls : List Listener}
    (hls : ∀ l ∈ ls, ∀ p dt k v, l.onUpdate p dt k v = true)
    (w : List ((EntryPath × String) × Tent)) : ∀ ts : List Tent,
    runTents ls w ts =
      (ts.filter (fun t => decide (alookup (tKey t) w = some t))).flatMap (dispatchEvents ls)
  | [] => rfl
  | t :: ts => by
    rw [runTents_cons]
    by_cases hw : alookup (tKey t) w = some t
    · rw [if_pos hw, if_pos (dispatchOk_allTrue hls t),
        List.filter_cons_of_pos (by simp [hw]), List.flatMap_cons,
        runTents_allTrue hls w ts]
    · rw [if_neg hw, List.filter_cons_of_neg (by simp [hw])]
      exact runTents_allTrue hls w ts

theorem runCount_allTrue {ls : List Listener}
    (hls : ∀ l ∈ ls, ∀ p dt k v, l.onUpdate p dt k v = true)
    (w : List ((EntryPath × String) × Tent)) : ∀ ts : List Tent,
    runCount ls w ts = ts.length
  | [] => rfl
  | t :: ts => by
    rw [runCount_cons]
    by_cases hw : alookup (tKey t) w = some t
    · rw [if_pos hw, if_pos (dispatchOk_allTrue hls t), runCount_allTrue hls w ts,
        List.length_cons]
    · rw [if_neg hw, runCount_allTrue hls w ts, List.length_cons]

theorem runTents_stop (ls : List Listener) (w : List ((EntryPath × String) × Tent)) :
    ∀ (pre : List Tent) (bad : Tent) (rest : List Tent),
    (∀ t ∈ pre ++ bad :: rest, alookup (tKey t) w = some t) →
    (∀ t ∈ pre, dispatchOk ls t = true) → dispatchOk ls bad = false →
    runTents ls w (pre ++ bad :: rest) = (pre ++ [bad]).flatMap (dispatchEvents ls) ∧
      runCount ls w (pre ++ bad :: rest) = pre.length
  | [], bad, rest, hw, _, hbad => by
    have hwb : alookup (tKey bad) w = some bad := hw bad (List.mem_cons_self _ _)
    have hb : ¬(dispatchOk ls bad = true) := by rw [hbad]; exact Bool.false_ne_true
    constructor
    · rw [List.nil_append, runTents_cons, if_pos hwb, if_neg hb]
      simp
    · rw [List.nil_append, runCount_cons, if_pos hwb, if_neg hb]
      rfl
  | t :: pre, bad, rest, hw, hok, hbad => by
    have hwt : alookup (tKey t) w = some t := hw t (List.mem_cons_self _ _)
    have hokt : dispatchOk ls t = true := hok t (List.mem_cons_self _ _)
    have ih := runTents_stop ls w pre bad rest
      (fun u hu => hw u (List.mem_cons_of_mem _ hu))
      (fun u hu => hok u (List.mem_cons_of_mem _ hu)) hbad
    constructor
    · rw [List.cons_append, runTents_cons, if_pos hwt, if_pos hokt, ih.1,
        List.cons_append, List.flatMap_cons]
    · rw [List.cons_append, runCount_cons, if_pos hwt, if_pos hokt, ih.2, List.length_cons]

/-! ### `executeAllNewEntries` projections -/

theorem exec_events (d : Disk) (e : Engine) :
    (executeAllNewEntries d e).2 =
      (d.logs.map
        (fun f => runTents e.listeners (mergeTents (newTents d e)) (fileNewTents e f))).flatten :=
  rfl

theorem exec_listeners (d : Disk) (e : Engine) :
    (executeAllNewEntries d e).1.listeners = e.listeners := rfl

theorem exec_cursors (d : Disk) (e : Engine) :
    (executeAllNewEntries d e).1.cursors =
      d.logs.foldl
        (fun cs f => setCursor cs f.1
          (cursorOf e f.1 +
            runCount e.listeners (mergeTents (newTents d e)) (fileNewTents e f)))
        e.cursors := rfl

theorem alookup_foldl_setCursor_of_ne (val : (LogId × List Line) → Nat) :
    ∀ (L : List (LogId × List Line)) (cs : List (LogId × Nat)) (i : LogId),
    (∀ f ∈ L, f.1 ≠ i) →
    alookup i (L.foldl (fun a g => setCursor a g.1 (val g)) cs) = alookup i cs
  | [], _, _, _ => rfl
  | g :: L, cs, i, h => by
    rw [List.foldl_cons,
      alookup_foldl_setCursor_of_ne val L _ i (fun f hf => h f (List.mem_cons_of_mem _ hf))]
    exact alookup_setCursor_ne cs (val g) (fun hEq => h g (List.mem_cons_self _ _) hEq.symm)

theorem alookup_foldl_setCursor (val : (LogId × List Line) → Nat) :
    ∀ (L : List (LogId × List Line)) (cs : List (LogId × Nat)) (f : LogId × List Line),
    f ∈ L → (L.map (fun g => g.1)).Nodup →
    alookup f.1 (L.foldl (fun a g => setCursor a g.1 (val g)) cs) = some (val f)
  | [], _, f, hf, _ => by cases hf
  | g :: L, cs, f, hf, hnd => by
    rw [List.map_cons, List.nodup_cons] at hnd
    rcases List.mem_cons.mp hf with hf | hf
    · subst hf
      have hne : ∀ g₂ ∈ L, g₂.1 ≠ f.1 := by
        intro g₂ hg₂ hEq
        exact hnd.1 (by rw [← hEq]; exact List.mem_map_of_mem _ hg₂)
      rw [List.foldl_cons, alookup_foldl_setCursor_of_ne val L _ f.1 hne]
      exact alookup_setCursor_self cs f.1 (val f)
    · rw [List.foldl_cons]
      exact alookup_foldl_setCursor val L _ f hf hnd.2

theorem cursorOf_exec (d : Disk) (e : Engine) {f : LogId × List Line} (hf : f ∈ d.logs)
    (hnd : (d.logs.map (fun g => g.1)).Nodup) :
    cursorOf (executeAllNewEntries d e).1 f.1 =
      cursorOf e f.1 +
        runCount e.listeners (mergeTents (newTents d e)) (fileNewTents e f) := by
  rw [cursorOf, exec_cursors,
    alookup_foldl_setCursor
      (fun g => cursorOf e g.1 +
        runCount e.listeners (mergeTents (newTents d e)) (fileNewTents e g))
      d.logs e.cursors f hf hnd]
  rfl

theorem flatten_eq_nil_of_all {α : Type} : ∀ {L : List (List α)},
    (∀ l ∈ L, l = []) → L.flatten = []
  | [], _ => rfl
  | l :: L, h => by
    rw [List.flatten_cons, h l (List.mem_cons_self _ _), List.nil_append]
    exact flatten_eq_nil_of_all (fun u hu => h u (List.mem_cons_of_mem _ hu))

theorem fileNewTents_eq_nil {e : Engine} {f : LogId × List Line}
    (h : f.2.length ≤ cursorOf e f.1) : fileNewTents e f = [] := by
  rw [fileNewTents, List.drop_eq_nil_of_le h, List.map_nil]

theorem exec_events_of_no_new (d : Disk) (e₂ : Engine)
    (h : ∀ f ∈ d.logs, fileNewTents e₂ f = []) :
    (executeAllNewEntries d e₂).2 = [] := by
  rw [exec_events]
  apply flatten_eq_nil_of_all
  intro l hl
  rcases List.mem_map.mp hl with ⟨f, hf, rfl⟩
  rw [h f hf]
  rfl

/-! ### The stored view -/

theorem updateStored_nil (p : EntryPath) (k v dt app : String) :
    updateStored [] p k v dt app = [((p, k), ⟨v, dt, app⟩)] := rfl

theorem updateStored_cons (key : EntryPath × String) (sv : StoredVal)
    (rest : List ((EntryPath × String) × StoredVal)) (p : EntryPath) (k v dt app : String) :
    updateStored ((key, sv) :: rest) p k v dt app =
      if key = (p, k) then
        (key, if pairLt (sv.datetime, sv.srcApp) (dt, app) then ⟨v, dt, app⟩ else sv) :: rest
      else (key, sv) :: updateStored rest p k v dt app := rfl

theorem updateStored_fresh : ∀ (st : List ((EntryPath × String) × StoredVal))
    (p : EntryPath) (k v dt app : String), alookup (p, k) st = none →
    updateStored st p k v dt app = st ++ [((p, k), ⟨v, dt, app⟩)]
  | [], _, _, _, _, _, _ => rfl
  | (key, sv) :: rest, p, k, v, dt, app, h => by
    by_cases hk : key = (p, k)
    · rw [alookup_cons, if_pos hk] at h
      cases h
    · rw [alookup_cons, if_neg hk] at h
      rw [updateStored_cons, if_neg hk, List.cons_append, updateStored_fresh rest p k v dt app h]

theorem alookup_updateStored_fresh (st : List ((EntryPath × String) × StoredVal))
    (p : EntryPath) (k v dt app : String) (h : alookup (p, k) st = none) :
    alookup (p, k) (updateStored st p k v dt app) = some ⟨v, dt, app⟩ := by
  rw [updateStored_fresh st p k v dt app h, alookup_append_of_none _ h, alookup_cons, if_pos rfl]

theorem mem_updateStored_fresh (st : List ((EntryPath × String) × StoredVal))
    (p : EntryPath) (k v dt app : String) (h : alookup (p, k) st = none) :
    ((p, k), (⟨v, dt, app⟩ : StoredVal)) ∈ updateStored st p k v dt app := by
  rw [updateStored_fresh st p k v dt app h]
  simp

/-! ### Uniqueness of the maximum -/

theorem filter_eq_single_of_pairwise : ∀ {ts : List Tent},
    ts.Pairwise (fun a b => tStamp a ≠ tStamp b) → ∀ {m : Tent}, m ∈ ts →
    ts.filter (fun t => decide (t = m)) = [m]
  | [], _, _, hm => by cases hm
  | t :: ts, hpw, m, hm => by
    rw [List.pairwise_cons] at hpw
    rcases List.mem_cons.mp hm with hm | hm
    · rw [← hm] at hpw ⊢
      rw [List.filter_cons_of_pos (by simp)]
      have hnil : ts.filter (fun t => decide (t = m)) = [] := by
        rw [List.filter_eq_nil_iff]
        intro a ha
        simp only [decide_eq_true_eq]
        exact fun hEq => hpw.1 a ha (by rw [hEq])
      rw [hnil]
    · have hne : ¬(t = m) := fun hEq => hpw.1 m hm (by rw [hEq])
      rw [List.filter_cons_of_neg (by simp [hne])]
      exact filter_eq_single_of_pairwise hpw.2 hm

/-! ### Events of a full call, for plain (always-succeeding) listeners -/

theorem runTents_flatten_allTrue {ls : List Listener}
    (hls : ∀ l ∈ ls, ∀ p dt k v, l.onUpdate p dt k v = true)
    (w : List ((EntryPath × String) × Tent)) :
    ∀ (L : List (LogId × List Line)) (e : Engine),
    (L.map (fun f => runTents ls w (fileNewTents e f))).flatten =
      ((L.map (fileNewTents e)).flatten.filter
        (fun t => decide (alookup (tKey t) w = some t))).flatMap (dispatchEvents ls)
  | [], _ => rfl
  | f :: L, e => by
    rw [List.map_cons, List.flatten_cons, List.map_cons, List.flatten_cons,
      List.filter_append, List.flatMap_append, runTents_allTrue hls w (fileNewTents e f),
      runTents_flatten_allTrue hls w L e]

theorem exec_events_allTrue (d : Disk) (e : Engine)
    (hls : ∀ l ∈ e.listeners, ∀ p dt k v, l.onUpdate p dt k v = true) :
    (executeAllNewEntries d e).2 =
      ((newTents d e).filter
        (fun t => decide (alookup (tKey t) (mergeTents (newTents d e)) = some t))).flatMap
        (dispatchEvents e.listeners) := by
  rw [exec_events]
  exact runTents_flatten_allTrue hls (mergeTents (newTents d e)) d.logs e

/-! ### The disk produced by a set of writers -/

theorem allWrites_nil : allWrites [] = [] := rfl

theorem allWrites_cons (w : String × List (String × String))
    (ws : List (String × List (String × String))) :
    allWrites (w :: ws) = w.2.map (fun dv => (w.1, dv.1, dv.2)) ++ allWrites ws := by
  rw [allWrites, List.flatMap_cons, allWrites]

theorem cursorOf_readerEngine (r : String) (i : LogId) : cursorOf (readerEngine r) i = 0 := rfl

theorem newTents_diskOf :
    ∀ (writers : List (String × List (String × String))) (p : EntryPath) (k r : String),
    newTents (diskOf writers p k) (readerEngine r) = (allWrites writers).map (tentOfWrite p k)
  | [], _, _, _ => rfl
  | w :: ws, p, k, r => by
    have ih := newTents_diskOf ws p k r
    rw [newTents] at ih ⊢
    show (List.map (fileNewTents (readerEngine r))
        (((w.1, p), w.2.map (fun dv => ⟨dv.1, k, dv.2⟩)) :: (diskOf ws p k).logs)).flatten = _
    rw [List.map_cons, List.flatten_cons, ih, allWrites_cons, List.map_append]
    congr 1
    rw [fileNewTents]
    show ((w.2.map (fun dv => (⟨dv.1, k, dv.2⟩ : Line))).drop 0).map (tentOf w.1 p) = _
    rw [List.drop_zero, List.map_map, List.map_map]
    rfl

theorem readerEngine_allTrue (r : String) :
    ∀ l ∈ (readerEngine r).listeners, ∀ p dt k v, l.onUpdate p dt k v = true := by
  intro l hl p dt k v
  rw [show (readerEngine r).listeners = [⟨[], fun _ _ _ _ => true⟩] from rfl,
    List.mem_singleton] at hl
  rw [hl]

theorem flatMap_singleton_eq_map {α β : Type} (f : α → β) (g : α → List β)
    (h : ∀ a, g a = [f a]) : ∀ l : List α, l.flatMap g = l.map f
  | [] => rfl
  | a :: l => by
    rw [List.flatMap_cons, h a, List.map_cons, flatMap_singleton_eq_map f g h l]
    rfl

/-- Claim C1: for every sequence of writes to a single `(path, key)` by any
set of writers (each writer appending its `(datetime, value)` sequence to its
own log file), followed by one `execute_all_new_entries` by a fresh reader
with one plain catch-all listener, the listener receives exactly the value of
the write whose `(datetime, source_app_id)` pair is the maximum under the
§4.7 total order: greater datetime (string comparison) wins, and on equal
datetimes the lexicographically greater `source_app_id` wins. -/
theorem executeAllNewEntries_delivers_max
    (writers : List (String × List (String × String))) (p : EntryPath) (k r : String)
    (hne : allWrites writers ≠ [])
    (hdist : (allWrites writers).Pairwise (fun u v => (u.2.1, u.1) ≠ (v.2.1, v.1))) :
    ∃ u ∈ allWrites writers,
      (∀ u₂ ∈ allWrites writers, u₂ ≠ u → writeLt u₂ u = true) ∧
      (executeAllNewEntries (diskOf writers p k) (readerEngine r)).2 =
        [⟨0, p, u.2.1, k, u.2.2⟩] := by
  have hkeys : ∀ t ∈ (allWrites writers).map (tentOfWrite p k), tKey t = (p, k) := by
    intro t ht
    rcases List.mem_map.mp ht with ⟨u, _, rfl⟩
    rfl
  have htne : (allWrites writers).map (tentOfWrite p k) ≠ [] := by
    intro hEq
    exact hne (List.map_eq_nil_iff.mp hEq)
  obtain ⟨m, hw, hm, hmax⟩ :=
    mergeTents_const (p, k) ((allWrites writers).map (tentOfWrite p k)) htne hkeys
  obtain ⟨u₀, hu₀, hu₀m⟩ := List.mem_map.mp hm
  have hpwT : ((allWrites writers).map (tentOfWrite p k)).Pairwise
      (fun a b => tStamp a ≠ tStamp b) := by
    rw [List.pairwise_map]
    exact hdist
  refine ⟨u₀, hu₀, ?_, ?_⟩
  · intro u₂ hu₂ hne₂
    rcases hmax (tentOfWrite p k u₂) (List.mem_map_of_mem _ hu₂) with h | h
    · exfalso
      have hsymm : Symmetric (fun u v : String × String × String =>
          (u.2.1, u.1) ≠ (v.2.1, v.1)) := fun x y hxy hEq => hxy hEq.symm
      have hp := List.Pairwise.forall hsymm hdist hu₂ hu₀ hne₂
      apply hp
      have h₂ : tStamp (tentOfWrite p k u₂) = tStamp (tentOfWrite p k u₀) := by
        rw [hu₀m]; exact h
      exact h₂
    · have h₂ : pairLt (tStamp (tentOfWrite p k u₂)) (tStamp (tentOfWrite p k u₀)) = true := by
        rw [hu₀m]; exact h
      exact h₂
  · rw [exec_events_allTrue (diskOf writers p k) (readerEngine r) (readerEngine_allTrue r),
      newTents_diskOf writers p k r, hw]
    have hfilter : ((allWrites writers).map (tentOfWrite p k)).filter
        (fun t => decide (alookup (tKey t) [((p, k), m)] = some t)) =
        ((allWrites writers).map (tentOfWrite p k)).filter (fun t => decide (t = m)) := by
      apply List.filter_congr
      intro t ht
      rw [hkeys t ht, alookup_cons, if_pos rfl]
      simp [eq_comm]
    rw [hfilter, filter_eq_single_of_pairwise hpwT hm, List.flatMap_cons, List.flatMap_nil,
      List.append_nil, ← hu₀m]
    rfl

/-- A concrete instance of claim C1's theorem: two writers tie on the
datetime and the lexicographically greater app id wins. -/
theorem executeAllNewEntries_delivers_max_witness :
    allWrites [("A", [("2024-01-01T00:00:00.000", "X")]),
      ("B", [("2024-01-01T00:00:00.000", "Y")])] ≠ [] ∧
    (allWrites [("A", [("2024-01-01T00:00:00.000", "X")]),
      ("B", [("2024-01-01T00:00:00.000", "Y")])]).Pairwise
      (fun u v => (u.2.1, u.1) ≠ (v.2.1, v.1)) ∧
    ∃ u ∈ allWrites [("A", [("2024-01-01T00:00:00.000", "X")]),
        ("B", [("2024-01-01T00:00:00.000", "Y")])],
      (∀ u₂ ∈ allWrites [("A", [("2024-01-01T00:00:00.000", "X")]),
          ("B", [("2024-01-01T00:00:00.000", "Y")])], u₂ ≠ u → writeLt u₂ u = true) ∧
      (executeAllNewEntries
        (diskOf [("A", [("2024-01-01T00:00:00.000", "X")]),
          ("B", [("2024-01-01T00:00:00.000", "Y")])] ["pk"] "vk")
        (readerEngine "R")).2 = [⟨0, ["pk"], u.2.1, "vk", u.2.2⟩] :=
  ⟨by decide, by decide,
    executeAllNewEntries_delivers_max
      [("A", [("2024-01-01T00:00:00.000", "X")]), ("B", [("2024-01-01T00:00:00.000", "Y")])]
      ["pk"] "vk" "R" (by decide) (by decide)⟩

/-- Claim C2: an entry written with `set_entry` is delivered by
`execute_all_new_entries` on a second engine (a distinct app id observing the
same directory) to each matching listener exactly once — the event list is
exactly one event per matching listener, in registration order — and a second
`execute_all_new_entries` with no intervening writes invokes no listeners at
all.  The reader's listeners are plain (always-succeeding) callbacks. -/
theorem setEntry_delivered_exactly_once
    (a r : String) (ls : List Listener) (p : EntryPath) (k v dt : String)
    (hls : ∀ l ∈ ls, ∀ q dt₂ k₂ v₂, l.onUpdate q dt₂ k₂ v₂ = true) :
    (executeAllNewEntries (setEntry ⟨[]⟩ ⟨a, [], [], []⟩ p k v dt).1 ⟨r, ls, [], []⟩).2 =
      (matchingListeners ls p).map (fun il => ⟨il.1, p, dt, k, v⟩) ∧
    (executeAllNewEntries (setEntry ⟨[]⟩ ⟨a, [], [], []⟩ p k v dt).1
      (executeAllNewEntries (setEntry ⟨[]⟩ ⟨a, [], [], []⟩ p k v dt).1 ⟨r, ls, [], []⟩).1).2 =
      [] := by
  have h1 : newTents (setEntry ⟨[]⟩ ⟨a, [], [], []⟩ p k v dt).1 ⟨r, ls, [], []⟩ =
      [⟨a, p, dt, k, v⟩] := rfl
  have h2 : mergeTents [(⟨a, p, dt, k, v⟩ : Tent)] = [((p, k), ⟨a, p, dt, k, v⟩)] := rfl
  have hcond : (fun t => decide (alookup (tKey t)
      (mergeTents [(⟨a, p, dt, k, v⟩ : Tent)]) = some t)) (⟨a, p, dt, k, v⟩ : Tent) = true := by
    show decide (alookup (tKey (⟨a, p, dt, k, v⟩ : Tent))
      (mergeTents [(⟨a, p, dt, k, v⟩ : Tent)]) = some (⟨a, p, dt, k, v⟩ : Tent)) = true
    rw [h2, show tKey (⟨a, p, dt, k, v⟩ : Tent) = (p, k) from rfl, alookup_cons, if_pos rfl]
    simp
  constructor
  · rw [exec_events_allTrue _ _ hls, h1, List.filter_cons, if_pos hcond, List.filter_nil,
      List.flatMap_cons, List.flatMap_nil, List.append_nil]
    rfl
  · apply exec_events_of_no_new
    intro f hf
    rw [show (setEntry ⟨[]⟩ ⟨a, [], [], []⟩ p k v dt).1.logs =
      [((a, p), [⟨dt, k, v⟩])] from rfl, List.mem_singleton] at hf
    subst hf
    apply fileNewTents_eq_nil
    rw [cursorOf_exec (setEntry ⟨[]⟩ ⟨a, [], [], []⟩ p k v dt).1 ⟨r, ls, [], []⟩
      (List.mem_singleton.mpr rfl) (List.nodup_singleton _), runCount_allTrue hls]
    exact Nat.le_refl 1

/-- A concrete instance of claim C2's theorem: one write, one catch-all plain
listener; the first call delivers it once, the second call delivers nothing. -/
theorem setEntry_delivered_exactly_once_witness :
    (executeAllNewEntries (setEntry ⟨[]⟩ ⟨"A", [], [], []⟩ ["q"] "k" "v" "t").1
      ⟨"R", (readerEngine "R").listeners, [], []⟩).2 =
      (matchingListeners (readerEngine "R").listeners ["q"]).map
        (fun il => ⟨il.1, ["q"], "t", "k", "v"⟩) ∧
    (executeAllNewEntries (setEntry ⟨[]⟩ ⟨"A", [], [], []⟩ ["q"] "k" "v" "t").1
      (executeAllNewEntries (setEntry ⟨[]⟩ ⟨"A", [], [], []⟩ ["q"] "k" "v" "t").1
        ⟨"R", (readerEngine "R").listeners, [], []⟩).1).2 = [] :=
  setEntry_delivered_exactly_once "A" "R" (readerEngine "R").listeners ["q"] "k" "v" "t"
    (readerEngine_allTrue "R")

/-- Claim C7: a listener's callback is invoked for an entry iff the
listener's subpath is a (non-strict) prefix of the entry's path —
`matchesPath sp q` holds iff `sp` extended by some `rest` is `q` — and when
several listeners match, all of them are invoked, in registration order: the
events of executing a freshly written entry are exactly the matching
listeners, with their registration indices, in registration order. -/
theorem listener_matching
    (a r : String) (ls : List Listener) (p : EntryPath) (k v dt : String) :
    (∀ sp q, matchesPath sp q = true ↔ ∃ rest, sp ++ rest = q) ∧
    (executeAllNewEntries (setEntry ⟨[]⟩ ⟨a, [], [], []⟩ p k v dt).1 ⟨r, ls, [], []⟩).2 =
      ((withIdx 0 ls).filter (fun il => matchesPath il.2.subpath p)).map
        (fun il => ⟨il.1, p, dt, k, v⟩) := by
  constructor
  · exact matchesPath_iff
  · have h1 : (executeAllNewEntries (setEntry ⟨[]⟩ ⟨a, [], [], []⟩ p k v dt).1
        ⟨r, ls, [], []⟩).2 =
        runTents ls (mergeTents [⟨a, p, dt, k, v⟩]) [⟨a, p, dt, k, v⟩] := by
      rw [exec_events]
      show ([runTents ls (mergeTents [⟨a, p, dt, k, v⟩]) [⟨a, p, dt, k, v⟩]]).flatten = _
      rw [List.flatten_cons, List.flatten_nil, List.append_nil]
    have hw : alookup (tKey (⟨a, p, dt, k, v⟩ : Tent))
        (mergeTents [(⟨a, p, dt, k, v⟩ : Tent)]) = some ⟨a, p, dt, k, v⟩ := by
      rw [show mergeTents [(⟨a, p, dt, k, v⟩ : Tent)] =
        [(tKey ⟨a, p, dt, k, v⟩, ⟨a, p, dt, k, v⟩)] from rfl, alookup_cons, if_pos rfl]
    rw [h1, runTents_cons, if_pos hw]
    by_cases hok : dispatchOk ls ⟨a, p, dt, k, v⟩ = true
    · rw [if_pos hok, runTents_nil, List.append_nil]
      rfl
    · rw [if_neg hok]
      rfl

/-- Claim C8: one log file holds the lines `pre ++ bad :: post` (distinct
keys, all matched by the single with-success listener); the listener succeeds
on every line of `pre` and fails on `bad`.  Then (i) the call delivers exactly
`pre ++ [bad]` — the failed line is offered but no later line of the file is
delivered in the same call; (ii) the cursor stops just before the failed
line; (iii) the next `execute_all_new_entries` (with the listener now
succeeding) redelivers exactly the failed line and all later lines of the
file, and none of the earlier ones. -/
theorem withSuccess_failure_freezes_cursor
    (wapp rapp : String) (p : EntryPath) (ok : String → Bool)
    (pre post : List Line) (bad : Line)
    (hnd : ((pre ++ bad :: post).map (fun ℓ => ℓ.key)).Nodup)
    (hpre : ∀ ℓ ∈ pre, ok ℓ.key = true)
    (hbad : ok bad.key = false) :
    (executeAllNewEntries ⟨[((wapp, p), pre ++ bad :: post)]⟩
        ⟨rapp, [⟨[], fun _ _ k _ => ok k⟩], [], []⟩).2 =
      (pre ++ [bad]).map (fun ℓ => ⟨0, p, ℓ.datetime, ℓ.key, ℓ.value⟩) ∧
    cursorOf (executeAllNewEntries ⟨[((wapp, p), pre ++ bad :: post)]⟩
        ⟨rapp, [⟨[], fun _ _ k _ => ok k⟩], [], []⟩).1 (wapp, p) = pre.length ∧
    (executeAllNewEntries ⟨[((wapp, p), pre ++ bad :: post)]⟩
        { (executeAllNewEntries ⟨[((wapp, p), pre ++ bad :: post)]⟩
            ⟨rapp, [⟨[], fun _ _ k _ => ok k⟩], [], []⟩).1 with
          listeners := [⟨[], fun _ _ _ _ => true⟩] }).2 =
      (bad :: post).map (fun ℓ => ⟨0, p, ℓ.datetime, ℓ.key, ℓ.value⟩) := by
  have hok_eq : ∀ t : Tent,
      dispatchOk [(⟨[], fun _ _ k _ => ok k⟩ : Listener)] t = ok t.key := by
    intro t
    show (ok t.key && true) = ok t.key
    exact Bool.and_true _
  have hdisp : ∀ t : Tent, dispatchEvents [(⟨[], fun _ _ k _ => ok k⟩ : Listener)] t =
      [⟨0, t.path, t.datetime, t.key, t.value⟩] := fun t => rfl
  have hnew : newTents ⟨[((wapp, p), pre ++ bad :: post)]⟩
      ⟨rapp, [⟨[], fun _ _ k _ => ok k⟩], [], []⟩ =
      (pre ++ bad :: post).map (tentOf wapp p) := by
    show ([(pre ++ bad :: post).map (tentOf wapp p)]).flatten =
      (pre ++ bad :: post).map (tentOf wapp p)
    rw [List.flatten_cons, List.flatten_nil, List.append_nil]
  have hndT : (((pre ++ bad :: post).map (tentOf wapp p)).map tKey).Nodup := by
    rw [List.map_map]
    have h₂ : (tKey ∘ tentOf wapp p) =
        ((fun k => ((p, k) : EntryPath × String)) ∘ (fun ℓ : Line => ℓ.key)) := rfl
    rw [h₂, ← List.map_map]
    exact hnd.map (fun x y h => by injection h)
  have hwAll : ∀ t ∈ (pre ++ bad :: post).map (tentOf wapp p),
      alookup (tKey t) (mergeTents ((pre ++ bad :: post).map (tentOf wapp p))) = some t :=
    fun t ht => mergeTents_lookup_self _ hndT ht
  have htents : (pre ++ bad :: post).map (tentOf wapp p) =
      pre.map (tentOf wapp p) ++ tentOf wapp p bad :: post.map (tentOf wapp p) := by
    rw [List.map_append, List.map_cons]
  have hwAll₂ := htents ▸ hwAll
  obtain ⟨hev, hcnt⟩ := runTents_stop [(⟨[], fun _ _ k _ => ok k⟩ : Listener)]
    (mergeTents (pre.map (tentOf wapp p) ++ tentOf wapp p bad :: post.map (tentOf wapp p)))
    (pre.map (tentOf wapp p)) (tentOf wapp p bad) (post.map (tentOf wapp p))
    hwAll₂
    (by
      intro t ht
      rcases List.mem_map.mp ht with ⟨ℓ, hℓ, rfl⟩
      rw [hok_eq]
      exact hpre ℓ hℓ)
    (by rw [hok_eq]; exact hbad)
  have hc2 : cursorOf (executeAllNewEntries ⟨[((wapp, p), pre ++ bad :: post)]⟩
      ⟨rapp, [⟨[], fun _ _ k _ => ok k⟩], [], []⟩).1 (wapp, p) = pre.length := by
    show cursorOf (executeAllNewEntries ⟨[((wapp, p), pre ++ bad :: post)]⟩
      ⟨rapp, [⟨[], fun _ _ k _ => ok k⟩], [], []⟩).1 ((wapp, p), pre ++ bad :: post).1 =
      pre.length
    rw [cursorOf_exec ⟨[((wapp, p), pre ++ bad :: post)]⟩
      ⟨rapp, [⟨[], fun _ _ k _ => ok k⟩], [], []⟩
      (List.mem_singleton.mpr rfl) (List.nodup_singleton _)]
    have h3 : fileNewTents ⟨rapp, [⟨[], fun _ _ k _ => ok k⟩], [], []⟩
        ((wapp, p), pre ++ bad :: post) = (pre ++ bad :: post).map (tentOf wapp p) := rfl
    rw [h3, hnew, htents, hcnt, List.length_map]
    show 0 + pre.length = pre.length
    exact Nat.zero_add _
  refine ⟨?_, hc2, ?_⟩
  · have h1 : (executeAllNewEntries ⟨[((wapp, p), pre ++ bad :: post)]⟩
        ⟨rapp, [⟨[], fun _ _ k _ => ok k⟩], [], []⟩).2 =
        runTents [(⟨[], fun _ _ k _ => ok k⟩ : Listener)]
          (mergeTents (newTents ⟨[((wapp, p), pre ++ bad :: post)]⟩
            ⟨rapp, [⟨[], fun _ _ k _ => ok k⟩], [], []⟩))
          ((pre ++ bad :: post).map (tentOf wapp p)) := by
      rw [exec_events]
      show ([runTents [(⟨[], fun _ _ k _ => ok k⟩ : Listener)]
        (mergeTents (newTents ⟨[((wapp, p), pre ++ bad :: post)]⟩
          ⟨rapp, [⟨[], fun _ _ k _ => ok k⟩], [], []⟩))
        ((pre ++ bad :: post).map (tentOf wapp p))]).flatten = _
      rw [List.flatten_cons, List.flatten_nil, List.append_nil]
    rw [h1, hnew, htents, hev,
      flatMap_singleton_eq_map
        (fun t : Tent => (⟨0, t.path, t.datetime, t.key, t.value⟩ : Event))
        (dispatchEvents [(⟨[], fun _ _ k _ => ok k⟩ : Listener)]) hdisp,
      show pre.map (tentOf wapp p) ++ [tentOf wapp p bad] =
        (pre ++ [bad]).map (tentOf wapp p) from by rw [List.map_append]; rfl,
      List.map_map]
    rfl
  · have hls₂ : ∀ l ∈ ({ (executeAllNewEntries ⟨[((wapp, p), pre ++ bad :: post)]⟩
        ⟨rapp, [⟨[], fun _ _ k _ => ok k⟩], [], []⟩).1 with
          listeners := [(⟨[], fun _ _ _ _ => true⟩ : Listener)] } : Engine).listeners,
        ∀ q dt₂ k₂ v₂, l.onUpdate q dt₂ k₂ v₂ = true := by
      intro l hl q dt₂ k₂ v₂
      rw [List.mem_singleton] at hl
      rw [hl]
    have hndR : (((bad :: post).map (tentOf wapp p)).map tKey).Nodup := by
      rw [List.map_append] at hnd
      have h₄ : ((bad :: post).map (fun ℓ => ℓ.key)).Nodup := hnd.of_append_right
      rw [List.map_map]
      have h₂ : (tKey ∘ tentOf wapp p) =
          ((fun k => ((p, k) : EntryPath × String)) ∘ (fun ℓ : Line => ℓ.key)) := rfl
      rw [h₂, ← List.map_map]
      exact h₄.map (fun x y h => by injection h)
    have hnew₂ : newTents ⟨[((wapp, p), pre ++ bad :: post)]⟩
        { (executeAllNewEntries ⟨[((wapp, p), pre ++ bad :: post)]⟩
            ⟨rapp, [⟨[], fun _ _ k _ => ok k⟩], [], []⟩).1 with
          listeners := [(⟨[], fun _ _ _ _ => true⟩ : Listener)] } =
        (bad :: post).map (tentOf wapp p) := by
      show ([fileNewTents { (executeAllNewEntries ⟨[((wapp, p), pre ++ bad :: post)]⟩
          ⟨rapp, [⟨[], fun _ _ k _ => ok k⟩], [], []⟩).1 with
            listeners := [(⟨[], fun _ _ _ _ => true⟩ : Listener)] }
        ((wapp, p), pre ++ bad :: post)]).flatten = _
      rw [List.flatten_cons, List.flatten_nil, List.append_nil, fileNewTents]
      have hcur₂ : cursorOf { (executeAllNewEntries ⟨[((wapp, p), pre ++ bad :: post)]⟩
          ⟨rapp, [⟨[], fun _ _ k _ => ok k⟩], [], []⟩).1 with
            listeners := [(⟨[], fun _ _ _ _ => true⟩ : Listener)] }
          ((wapp, p), pre ++ bad :: post).1 = pre.length := hc2
      rw [hcur₂]
      show ((pre ++ bad :: post).drop pre.length).map (tentOf wapp p) = _
      rw [List.drop_left]
    have hfil : ((bad :: post).map (tentOf wapp p)).filter
        (fun t => decide (alookup (tKey t)
          (mergeTents ((bad :: post).map (tentOf wapp p))) = some t)) =
        (bad :: post).map (tentOf wapp p) := by
      rw [List.filter_eq_self]
      intro t ht
      simp only [decide_eq_true_eq]
      exact mergeTents_lookup_self _ hndR ht
    rw [exec_events_allTrue _ _ hls₂, hnew₂, hfil,
      show ({ (executeAllNewEntries ⟨[((wapp, p), pre ++ bad :: post)]⟩
          ⟨rapp, [⟨[], fun _ _ k _ => ok k⟩], [], []⟩).1 with
        listeners := [(⟨[], fun _ _ _ _ => true⟩ : Listener)] } : Engine).listeners =
        [(⟨[], fun _ _ _ _ => true⟩ : Listener)] from rfl,
      flatMap_singleton_eq_map
        (fun t : Tent => (⟨0, t.path, t.datetime, t.key, t.value⟩ : Event))
        (dispatchEvents [(⟨[], fun _ _ _ _ => true⟩ : Listener)]) (fun t => rfl),
      List.map_map]
    rfl

/-- A concrete instance of claim C8's theorem: a log of five lines; the
listener fails on the third.  The first call delivers lines 1–3 and freezes
the cursor at 2; the next call delivers lines 3–5. -/
theorem withSuccess_failure_freezes_cursor_witness :
    ((([(⟨"t1", "k1", "v1"⟩ : Line), ⟨"t2", "k2", "v2"⟩] ++ (⟨"t3", "k3", "v3"⟩ : Line) ::
        [(⟨"t4", "k4", "v4"⟩ : Line), ⟨"t5", "k5", "v5"⟩]).map (fun ℓ : Line => ℓ.key)).Nodup) ∧
    (∀ ℓ ∈ [(⟨"t1", "k1", "v1"⟩ : Line), ⟨"t2", "k2", "v2"⟩],
      (fun k => !(k == "k3")) ℓ.key = true) ∧
    ((fun k => !(k == "k3")) (⟨"t3", "k3", "v3"⟩ : Line).key = false) ∧
    ((executeAllNewEntries
        ⟨[(("W", ["p"]), [(⟨"t1", "k1", "v1"⟩ : Line), ⟨"t2", "k2", "v2"⟩] ++
          (⟨"t3", "k3", "v3"⟩ : Line) :: [(⟨"t4", "k4", "v4"⟩ : Line), ⟨"t5", "k5", "v5"⟩])]⟩
        ⟨"R", [⟨[], fun _ _ k _ => !(k == "k3")⟩], [], []⟩).2 =
      ([(⟨"t1", "k1", "v1"⟩ : Line), ⟨"t2", "k2", "v2"⟩] ++ [(⟨"t3", "k3", "v3"⟩ : Line)]).map
        (fun ℓ : Line => (⟨0, ["p"], ℓ.datetime, ℓ.key, ℓ.value⟩ : Event)) ∧
    cursorOf (executeAllNewEntries
        ⟨[(("W", ["p"]), [(⟨"t1", "k1", "v1"⟩ : Line), ⟨"t2", "k2", "v2"⟩] ++
          (⟨"t3", "k3", "v3"⟩ : Line) :: [(⟨"t4", "k4", "v4"⟩ : Line), ⟨"t5", "k5", "v5"⟩])]⟩
        ⟨"R", [⟨[], fun _ _ k _ => !(k == "k3")⟩], [], []⟩).1 ("W", ["p"]) =
      ([(⟨"t1", "k1", "v1"⟩ : Line), ⟨"t2", "k2", "v2"⟩]).length ∧
    (executeAllNewEntries
        ⟨[(("W", ["p"]), [(⟨"t1", "k1", "v1"⟩ : Line), ⟨"t2", "k2", "v2"⟩] ++
          (⟨"t3", "k3", "v3"⟩ : Line) :: [(⟨"t4", "k4", "v4"⟩ : Line), ⟨"t5", "k5", "v5"⟩])]⟩
        { (executeAllNewEntries
            ⟨[(("W", ["p"]), [(⟨"t1", "k1", "v1"⟩ : Line), ⟨"t2", "k2", "v2"⟩] ++
              (⟨"t3", "k3", "v3"⟩ : Line) ::
                [(⟨"t4", "k4", "v4"⟩ : Line), ⟨"t5", "k5", "v5"⟩])]⟩
            ⟨"R", [⟨[], fun _ _ k _ => !(k == "k3")⟩], [], []⟩).1 with
          listeners := [⟨[], fun _ _ _ _ => true⟩] }).2 =
      ((⟨"t3", "k3", "v3"⟩ : Line) :: [(⟨"t4", "k4", "v4"⟩ : Line), ⟨"t5", "k5", "v5"⟩]).map
        (fun ℓ : Line => (⟨0, ["p"], ℓ.datetime, ℓ.key, ℓ.value⟩ : Event))) :=
  ⟨by decide, by decide, by decide,
    withSuccess_failure_freezes_cursor "W" "R" ["p"] (fun k => !(k == "k3"))
      [⟨"t1", "k1", "v1"⟩, ⟨"t2", "k2", "v2"⟩] [⟨"t4", "k4", "v4"⟩, ⟨"t5", "k5", "v5"⟩]
      ⟨"t3", "k3", "v3"⟩ (by decide) (by decide) (by decide)⟩

/-! ### The stored-entry retrieval operations -/

theorem executeStoredEntry_eq (e : Engine) (p : EntryPath) (k : String) {sv : StoredVal}
    (h : alookup (p, k) e.stored = some sv) :
    executeStoredEntry e p k =
      dispatchEvents e.listeners ⟨sv.srcApp, p, sv.datetime, k, sv.value⟩ := by
  simp only [executeStoredEntry, h]

/-- Claim C5: after `set_entry(path, key, value)` by an engine whose stored
view does not yet hold `(path, key)`, `execute_stored_entry(path, key)` finds
`(path, key)` in the stored view and dispatches the same value to the
matching listeners; the batch variants `execute_stored_entries`,
`execute_stored_entries_for_path_exact` and
`execute_all_stored_entries_for_path_exact` dispatch it as well. -/
theorem setEntry_then_executeStored
    (d : Disk) (e : Engine) (p : EntryPath) (k v dt : String)
    (hfresh : alookup (p, k) e.stored = none) :
    alookup (p, k) (setEntry d e p k v dt).2.stored = some ⟨v, dt, e.appId⟩ ∧
    executeStoredEntry (setEntry d e p k v dt).2 p k =
      dispatchEvents e.listeners ⟨e.appId, p, dt, k, v⟩ ∧
    executeStoredEntries (setEntry d e p k v dt).2 [(p, k)] =
      dispatchEvents e.listeners ⟨e.appId, p, dt, k, v⟩ ∧
    (∀ ev ∈ dispatchEvents e.listeners ⟨e.appId, p, dt, k, v⟩,
      ev ∈ executeStoredEntriesForPathExact (setEntry d e p k v dt).2 p [k]) ∧
    (∀ ev ∈ dispatchEvents e.listeners ⟨e.appId, p, dt, k, v⟩,
      ev ∈ executeAllStoredEntriesForPathExact (setEntry d e p k v dt).2 p) := by
  have hl : alookup (p, k) (setEntry d e p k v dt).2.stored = some ⟨v, dt, e.appId⟩ :=
    alookup_updateStored_fresh e.stored p k v dt e.appId hfresh
  have hmem : ((p, k), (⟨v, dt, e.appId⟩ : StoredVal)) ∈ (setEntry d e p k v dt).2.stored :=
    mem_updateStored_fresh e.stored p k v dt e.appId hfresh
  have hE : executeStoredEntry (setEntry d e p k v dt).2 p k =
      dispatchEvents e.listeners ⟨e.appId, p, dt, k, v⟩ :=
    executeStoredEntry_eq (setEntry d e p k v dt).2 p k hl
  refine ⟨hl, hE, ?_, ?_, ?_⟩
  · show executeStoredEntry (setEntry d e p k v dt).2 p k ++ [] = _
    rw [List.append_nil]
    exact hE
  · intro ev hev
    apply List.mem_flatten.mpr
    refine ⟨entryEvents (setEntry d e p k v dt).2 ((p, k), ⟨v, dt, e.appId⟩), ?_, hev⟩
    apply List.mem_map_of_mem
    apply List.mem_filter.mpr
    refine ⟨hmem, ?_⟩
    show (decide (p = p) && decide (k ∈ [k])) = true
    simp
  · intro ev hev
    apply List.mem_flatten.mpr
    refine ⟨entryEvents (setEntry d e p k v dt).2 ((p, k), ⟨v, dt, e.appId⟩), ?_, hev⟩
    apply List.mem_map_of_mem
    apply List.mem_filter.mpr
    refine ⟨hmem, ?_⟩
    show decide (p = p) = true
    simp

/-- A concrete instance of claim C5's theorem. -/
theorem setEntry_then_executeStored_witness :
    alookup ((["c"], "k") : EntryPath × String)
      (⟨"A", [⟨[], fun _ _ _ _ => true⟩], [], []⟩ : Engine).stored = none ∧
    (alookup (["c"], "k")
      (setEntry ⟨[]⟩ ⟨"A", [⟨[], fun _ _ _ _ => true⟩], [], []⟩ ["c"] "k" "v" "t").2.stored =
      some ⟨"v", "t", "A"⟩ ∧
    executeStoredEntry
      (setEntry ⟨[]⟩ ⟨"A", [⟨[], fun _ _ _ _ => true⟩], [], []⟩ ["c"] "k" "v" "t").2 ["c"] "k" =
      dispatchEvents (⟨"A", [⟨[], fun _ _ _ _ => true⟩], [], []⟩ : Engine).listeners
        ⟨"A", ["c"], "t", "k", "v"⟩ ∧
    executeStoredEntries
      (setEntry ⟨[]⟩ ⟨"A", [⟨[], fun _ _ _ _ => true⟩], [], []⟩ ["c"] "k" "v" "t").2
        [(["c"], "k")] =
      dispatchEvents (⟨"A", [⟨[], fun _ _ _ _ => true⟩], [], []⟩ : Engine).listeners
        ⟨"A", ["c"], "t", "k", "v"⟩ ∧
    (∀ ev ∈ dispatchEvents (⟨"A", [⟨[], fun _ _ _ _ => true⟩], [], []⟩ : Engine).listeners
        ⟨"A", ["c"], "t", "k", "v"⟩,
      ev ∈ executeStoredEntriesForPathExact
        (setEntry ⟨[]⟩ ⟨"A", [⟨[], fun _ _ _ _ => true⟩], [], []⟩ ["c"] "k" "v" "t").2
        ["c"] ["k"]) ∧
    (∀ ev ∈ dispatchEvents (⟨"A", [⟨[], fun _ _ _ _ => true⟩], [], []⟩ : Engine).listeners
        ⟨"A", ["c"], "t", "k", "v"⟩,
      ev ∈ executeAllStoredEntriesForPathExact
        (setEntry ⟨[]⟩ ⟨"A", [⟨[], fun _ _ _ _ => true⟩], [], []⟩ ["c"] "k" "v" "t").2
        ["c"])) :=
  ⟨rfl, setEntry_then_executeStored ⟨[]⟩ ⟨"A", [⟨[], fun _ _ _ _ => true⟩], [], []⟩
    ["c"] "k" "v" "t" rfl⟩

/-- Claim C10: the stored-entry "prefix" retrieval operations treat the given
path as a non-strict prefix — a stored entry whose path is exactly the given
path is dispatched by `execute_all_stored_entries_for_path_prefix`, and by
`execute_stored_entries_for_path_prefix` when its key is among the given
keys. -/
theorem storedPathPfx_includes_exact
    (e : Engine) (p : EntryPath) (k : String) (sv : StoredVal) (ks : List String)
    (hmem : ((p, k), sv) ∈ e.stored) (hk : k ∈ ks) :
    (∀ ev ∈ entryEvents e ((p, k), sv), ev ∈ executeAllStoredEntriesForPathPfx e p) ∧
    (∀ ev ∈ entryEvents e ((p, k), sv), ev ∈ executeStoredEntriesForPathPfx e p ks) := by
  constructor
  · intro ev hev
    apply List.mem_flatten.mpr
    refine ⟨entryEvents e ((p, k), sv), ?_, hev⟩
    apply List.mem_map_of_mem
    apply List.mem_filter.mpr
    refine ⟨hmem, ?_⟩
    show matchesPath p p = true
    exact matchesPath_refl p
  · intro ev hev
    apply List.mem_flatten.mpr
    refine ⟨entryEvents e ((p, k), sv), ?_, hev⟩
    apply List.mem_map_of_mem
    apply List.mem_filter.mpr
    refine ⟨hmem, ?_⟩
    show (matchesPath p p && decide (k ∈ ks)) = true
    rw [matchesPath_refl p]
    simp [hk]

/-- A concrete instance of claim C10's theorem. -/
theorem storedPathPfx_includes_exact_witness :
    ((((["a", "b"], "k") : EntryPath × String), (⟨"v", "t", "A"⟩ : StoredVal)) ∈
      (⟨"A", [⟨[], fun _ _ _ _ => true⟩], [],
        [(((["a", "b"] : EntryPath), "k"), ⟨"v", "t", "A"⟩)]⟩ : Engine).stored) ∧
    ("k" ∈ ["k"]) ∧
    ((∀ ev ∈ entryEvents (⟨"A", [⟨[], fun _ _ _ _ => true⟩], [],
        [(((["a", "b"] : EntryPath), "k"), ⟨"v", "t", "A"⟩)]⟩ : Engine)
        (((["a", "b"], "k") : EntryPath × String), ⟨"v", "t", "A"⟩),
      ev ∈ executeAllStoredEntriesForPathPfx
        (⟨"A", [⟨[], fun _ _ _ _ => true⟩], [],
          [(((["a", "b"] : EntryPath), "k"), ⟨"v", "t", "A"⟩)]⟩ : Engine) ["a", "b"]) ∧
    (∀ ev ∈ entryEvents (⟨"A", [⟨[], fun _ _ _ _ => true⟩], [],
        [(((["a", "b"] : EntryPath), "k"), ⟨"v", "t", "A"⟩)]⟩ : Engine)
        (((["a", "b"], "k") : EntryPath × String), ⟨"v", "t", "A"⟩),
      ev ∈ executeStoredEntriesForPathPfx
        (⟨"A", [⟨[], fun _ _ _ _ => true⟩], [],
          [(((["a", "b"] : EntryPath), "k"), ⟨"v", "t", "A"⟩)]⟩ : Engine) ["a", "b"] ["k"])) :=
  ⟨by decide, by decide,
    storedPathPfx_includes_exact
      ⟨"A", [⟨[], fun _ _ _ _ => true⟩], [], [(((["a", "b"] : EntryPath), "k"), ⟨"v", "t", "A"⟩)]⟩
      ["a", "b"] "k" ⟨"v", "t", "A"⟩ ["k"] (by decide) (by decide)⟩

/-! ### `get_static_info` -/

/-- Claim C6: `get_static_info` returns the §4.7-winning value among all
writers' entries at path `["info"]` for the given key (for candidate sets
with pairwise-distinct `(datetime, app_id)` stamps), and returns the literal
string `null` when no such entry was ever written. -/
theorem getStaticInfo_max_or_null (d : Disk) (k : String) :
    ((∀ f ∈ d.logs, f.1.2 = ["info"] → ∀ ℓ ∈ f.2, ℓ.key ≠ k) →
      getStaticInfo d k = "null") ∧
    ((infoCands d k).Pairwise (fun u u₂ => (u.1, u.2.1) ≠ (u₂.1, u₂.2.1)) →
      infoCands d k ≠ [] →
      ∃ c ∈ infoCands d k, getStaticInfo d k = c.2.2 ∧
        ∀ u ∈ infoCands d k, u ≠ c → pairLt (u.1, u.2.1) (c.1, c.2.1) = true) := by
  constructor
  · intro h
    have hnil : infoCands d k = [] := by
      rw [infoCands]
      apply flatten_eq_nil_of_all
      intro l hl
      rcases List.mem_map.mp hl with ⟨f, hf, rfl⟩
      by_cases hp : f.1.2 = ["info"]
      · rw [if_pos hp, List.map_eq_nil_iff, List.filter_eq_nil_iff]
        intro ℓ hℓ
        simp only [decide_eq_true_eq]
        exact h f hf hp ℓ hℓ
      · rw [if_neg hp]
    simp only [getStaticInfo, hnil]
  · intro hpw hne
    cases hcand : infoCands d k with
    | nil => exact absurd hcand hne
    | cons c cs =>
      rw [hcand] at hpw
      refine ⟨foldMax (fun u => (u.1, u.2.1)) c cs, foldMax_mem _ c cs, ?_, ?_⟩
      · simp only [getStaticInfo, hcand]
      · intro u hu hneu
        rcases foldMax_max (fun u => (u.1, u.2.1)) c cs u hu with h | h
        · exfalso
          have hsym : Symmetric (fun u u₂ : String × String × String =>
              (u.1, u.2.1) ≠ (u₂.1, u₂.2.1)) := fun x y hxy hEq => hxy hEq.symm
          exact List.Pairwise.forall hsym hpw hu
            (foldMax_mem (fun u => (u.1, u.2.1)) c cs) hneu h
        · exact h

/-- Concrete instances of claim C6's theorem: an absent key yields `null`; on
a datetime tie at `["info"]` the lexicographically greater writer wins. -/
theorem getStaticInfo_max_or_null_witness :
    getStaticInfo ⟨[(("A", ["x"]), [(⟨"t", "k", "v"⟩ : Line)])]⟩ "q" = "null" ∧
    ∃ c ∈ infoCands ⟨[(("A", ["info"]), [(⟨"t1", "name", "va"⟩ : Line)]),
        (("B", ["info"]), [(⟨"t1", "name", "vb"⟩ : Line)])]⟩ "name",
      getStaticInfo ⟨[(("A", ["info"]), [(⟨"t1", "name", "va"⟩ : Line)]),
        (("B", ["info"]), [(⟨"t1", "name", "vb"⟩ : Line)])]⟩ "name" = c.2.2 ∧
      ∀ u ∈ infoCands ⟨[(("A", ["info"]), [(⟨"t1", "name", "va"⟩ : Line)]),
        (("B", ["info"]), [(⟨"t1", "name", "vb"⟩ : Line)])]⟩ "name",
        u ≠ c → pairLt (u.1, u.2.1) (c.1, c.2.1) = true :=
  ⟨(getStaticInfo_max_or_null ⟨[(("A", ["x"]), [(⟨"t", "k", "v"⟩ : Line)])]⟩ "q").1
      (by decide),
    (getStaticInfo_max_or_null ⟨[(("A", ["info"]), [(⟨"t1", "name", "va"⟩ : Line)]),
        (("B", ["info"]), [(⟨"t1", "name", "vb"⟩ : Line)])]⟩ "name").2
      (by decide) (by decide)⟩

/-! ### `latest_app_id` -/

theorem bestStamp_nil (own : String) (acc : Option (String × String)) :
    bestStamp own acc [] = acc := by
  cases acc <;> rfl

theorem bestStamp_none_cons (own : String) (c : String × String) (cs : List (String × String)) :
    bestStamp own none (c :: cs) = bestStamp own (some c) cs := rfl

theorem bestStamp_some_cons (own : String) (b c : String × String)
    (cs : List (String × String)) :
    bestStamp own (some b) (c :: cs) =
      bestStamp own (some (if laBetter own b c then c else b)) cs := rfl

theorem laBetter_iff (own : String) (b c : String × String) :
    laBetter own b c = true ↔
      b.1 < c.1 ∨ (b.1 = c.1 ∧ (c.2 = own ∨ (¬(b.2 = own) ∧ b.2 < c.2))) := by
  simp [laBetter]

theorem bestStamp_max (own : String) : ∀ (cs : List (String × String)) (b : String × String),
    ∃ m, bestStamp own (some b) cs = some m ∧ m ∈ b :: cs ∧ ∀ c ∈ b :: cs, c.1 ≤ m.1
  | [], b => by
    refine ⟨b, bestStamp_nil own (some b), List.mem_singleton.mpr rfl, ?_⟩
    intro c hc
    rw [List.mem_singleton] at hc
    rw [hc]
  | c :: cs, b => by
    obtain ⟨m, hm, hmem, hmax⟩ := bestStamp_max own cs (if laBetter own b c then c else b)
    have hble : b.1 ≤ (if laBetter own b c then c else b).1 := by
      by_cases hlb : laBetter own b c = true
      · rw [if_pos hlb]
        rcases (laBetter_iff own b c).mp hlb with h | ⟨h, _⟩
        · exact le_of_lt h
        · exact le_of_eq h
      · rw [if_neg hlb]
    have hcle : c.1 ≤ (if laBetter own b c then c else b).1 := by
      by_cases hlb : laBetter own b c = true
      · rw [if_pos hlb]
      · rw [if_neg hlb]
        have h : ¬(b.1 < c.1) := by
          intro hlt
          exact hlb ((laBetter_iff own b c).mpr (Or.inl hlt))
        exact le_of_not_lt h
    have hhead : (if laBetter own b c then c else b).1 ≤ m.1 :=
      hmax _ (List.mem_cons_self _ _)
    refine ⟨m, by rw [bestStamp_some_cons]; exact hm, ?_, ?_⟩
    · rcases List.mem_cons.mp hmem with h | h
      · by_cases hlb : laBetter own b c = true
        · rw [if_pos hlb] at h
          rw [h, List.mem_cons, List.mem_cons]
          exact Or.inr (Or.inl rfl)
        · rw [if_neg hlb] at h
          rw [h, List.mem_cons]
          exact Or.inl rfl
      · rw [List.mem_cons, List.mem_cons]
        exact Or.inr (Or.inr h)
    · intro u hu
      rw [List.mem_cons, List.mem_cons] at hu
      rcases hu with hu | hu | hu
      · rw [hu]
        exact le_trans hble hhead
      · rw [hu]
        exact le_trans hcle hhead
      · exact hmax u (List.mem_cons_of_mem _ hu)

theorem bestStamp_own (own : String) :
    ∀ (cs : List (String × String)) (b : String × String) (D : String),
    (D, own) ∈ b :: cs → (∀ c ∈ b :: cs, c.1 ≤ D) →
    bestStamp own (some b) cs = some (D, own)
  | [], b, D, hmem, _ => by
    rw [List.mem_singleton] at hmem
    rw [bestStamp_nil, ← hmem]
  | c :: cs, b, D, hmem, hmax => by
    rw [bestStamp_some_cons]
    apply bestStamp_own own cs (if laBetter own b c then c else b) D
    · rw [List.mem_cons, List.mem_cons] at hmem
      rcases hmem with hmem | hmem | hmem
      · -- b = (D, own)
        by_cases hlb : laBetter own b c = true
        · -- then c.1 = D and c.2 = own, so the new accumulator is (D, own) again
          rcases (laBetter_iff own b c).mp hlb with h | ⟨h₁, h₂⟩
          · exfalso
            have hle : c.1 ≤ D := hmax c (List.mem_cons_of_mem _ (List.mem_cons_self _ _))
            have hD : b.1 = D := by rw [← hmem]
            rw [hD] at h
            exact absurd h (not_lt.mpr hle)
          · rcases h₂ with h₂ | ⟨h₂, _⟩
            · rw [List.mem_cons]
              left
              rw [if_pos hlb, Prod.ext_iff]
              constructor
              · show D = c.1
                rw [← h₁, ← hmem]
              · exact h₂.symm
            · exfalso
              apply h₂
              rw [← hmem]
        · rw [List.mem_cons]
          left
          rw [if_neg hlb]
          exact hmem
      · -- c = (D, own): the accumulator becomes c
        have hlb : laBetter own b c = true := by
          apply (laBetter_iff own b c).mpr
          have hc1 : c.1 = D := by rw [← hmem]
          have hble : b.1 ≤ D := hmax b (List.mem_cons_self _ _)
          rcases lt_or_eq_of_le hble with h | h
          · left
            rw [hc1]
            exact h
          · right
            constructor
            · rw [hc1]
              exact h
            · left
              rw [← hmem]
        rw [List.mem_cons]
        left
        rw [if_pos hlb]
        exact hmem
      · exact List.mem_cons_of_mem _ hmem
    · intro u hu
      rw [List.mem_cons] at hu
      rcases hu with hu | hu
      · rw [hu]
        by_cases hlb : laBetter own b c = true
        · rw [if_pos hlb]
          exact hmax c (List.mem_cons_of_mem _ (List.mem_cons_self _ _))
        · rw [if_neg hlb]
          exact hmax b (List.mem_cons_self _ _)
      · exact hmax u (List.mem_cons_of_mem _ (List.mem_cons_of_mem _ hu))

/-- Claim C9: `latest_app_id` returns the app id of a writer that stored the
most recent entry; when the caller's own app id is tied for most recent, the
caller's own app id is returned; for an engine that is the only writer (and
for an empty directory) it returns its own app id. -/
theorem latestAppId_spec (d : Disk) (own : String) :
    ((∀ c ∈ diskStamps d, c.2 = own) → latestAppId d own = own) ∧
    (∀ D, (D, own) ∈ diskStamps d → (∀ c ∈ diskStamps d, c.1 ≤ D) →
      latestAppId d own = own) ∧
    (diskStamps d = [] → latestAppId d own = own) ∧
    (diskStamps d ≠ [] → ∃ c ∈ diskStamps d, latestAppId d own = c.2 ∧
      ∀ u ∈ diskStamps d, u.1 ≤ c.1) := by
  cases hds : diskStamps d with
  | nil =>
    refine ⟨fun _ => ?_, fun D hD _ => ?_, fun _ => ?_, fun h => absurd rfl h⟩
    · simp only [latestAppId, hds, bestStamp_nil]
    · cases hD
    · simp only [latestAppId, hds, bestStamp_nil]
  | cons c cs =>
    obtain ⟨m, hm, hmem, hmax⟩ := bestStamp_max own cs c
    have hla : latestAppId d own = m.2 := by
      simp only [latestAppId, hds, bestStamp_none_cons, hm]
    refine ⟨?_, ?_, ?_, ?_⟩
    · intro hall
      rw [hla]
      exact hall m hmem
    · intro D hmemD hmaxD
      have h := bestStamp_own own cs c D hmemD hmaxD
      simp only [latestAppId, hds, bestStamp_none_cons, h]
    · intro h
      exact absurd h (List.cons_ne_nil c cs)
    · intro _
      exact ⟨m, hmem, hla, fun u hu => hmax u hu⟩

/-- Concrete instances of claim C9's theorem: a single writer sees its own
app id, and on a datetime tie the caller's own app id wins even against a
lexicographically greater competitor. -/
theorem latestAppId_spec_witness :
    latestAppId ⟨[(("A", ["p"]), [(⟨"t1", "k", "v"⟩ : Line)])]⟩ "A" = "A" ∧
    latestAppId ⟨[(("A", ["p"]), [(⟨"t1", "k", "v"⟩ : Line)]),
      (("Z", ["p"]), [(⟨"t1", "k", "w"⟩ : Line)])]⟩ "A" = "A" :=
  ⟨(latestAppId_spec ⟨[(("A", ["p"]), [(⟨"t1", "k", "v"⟩ : Line)])]⟩ "A").1 (by decide),
    (latestAppId_spec ⟨[(("A", ["p"]), [(⟨"t1", "k", "v"⟩ : Line)]),
      (("Z", ["p"]), [(⟨"t1", "k", "w"⟩ : Line)])]⟩ "A").2.1 "t1" (by decide)
      (by
        intro c hc
        have hstamps : diskStamps ⟨[(("A", ["p"]), [(⟨"t1", "k", "v"⟩ : Line)]),
            (("Z", ["p"]), [(⟨"t1", "k", "w"⟩ : Line)])]⟩ = [("t1", "A"), ("t1", "Z")] := rfl
        rw [hstamps, List.mem_cons, List.mem_singleton] at hc
        rcases hc with hc | hc <;> rw [hc])⟩

/-! ### The C ABI surface -/

/-- Claim C3: among the operations declared in `libdecsync.h`, exactly
`decsync_new` and `decsync_check_decsync_info` return an error code, their
documented codes are `0` (success), `1` (invalid info), `2` (unsupported
version), and every operation is infallible across the ABI (no operation can
throw; the only other `int` return, `decsync_list_decsync_collections`,
returns a count, not an error code). -/
theorem abi_error_codes :
    (headerAbi.filter (fun op => !op.errorCodes.isEmpty)).map (fun op => op.name) =
      ["decsync_new", "decsync_check_decsync_info"] ∧
    (headerAbi.all (fun op => op.errorCodes.isEmpty ||
      decide (op.errorCodes = [0, 1, 2]))) = true ∧
    (headerAbi.all (fun op => !op.canThrow)) = true ∧
    (headerAbi.all (fun op => op.errorCodes.isEmpty || op.returnsInt)) = true := by
  decide

/-- Claim C4 (code bug): the operations `add_listener_with_success`, the
`_exact`/`_prefix` stored-entry operations, `list_collections`,
`generate_app_id` and `init_done` are called by the repository's own test
`test.cpp` as part of the C ABI, but the header `libdecsync.h` under `src/`
declares none of them (it has only the older `execute_stored_entries_for_path`
and `list_decsync_collections`), so the test cannot compile against this
header: the header contradicts the repository's own test. -/
theorem test_calls_missing_from_header :
    testCalledOps.filter (fun n => !((headerAbi.map (fun op => op.name)).contains n)) =
      ["decsync_add_listener_with_success",
       "decsync_execute_stored_entries_for_path_exact",
       "decsync_execute_all_stored_entries_for_path_exact",
       "decsync_execute_stored_entries_for_path_prefix",
       "decsync_execute_all_stored_entries_for_path_prefix",
       "decsync_list_collections",
       "decsync_generate_app_id",
       "decsync_init_done"] := by
  decide

end Decsync
